import Mathlib

set_option maxHeartbeats 1000000

/-!
Shallow embedding of the asset-export and checksum subsystem of the
brandfetch CLI (Go sources `internal/output/output.go`,
`internal/cmd/checksum.go`, `internal/cmd/quick.go`).

Go strings are modelled as `List Char` (`Str`); Go byte/UTF-8 ordering
coincides with codepoint ordering, which is what `leStr` below uses.
Filesystem and network effects are modelled by explicit oracles
(`Option`-valued inputs standing for the outcome of a read / fetch).
-/

namespace Brandfetch

abbrev Str := List Char

/-- Decimal digits of a natural number, modelling Go `%d` formatting. -/
def natStr (n : Nat) : Str := Nat.toDigits 10 n

/-- The single-quote character (written via its code point). -/
def sq : Char := Char.ofNat 39

/-- Models Go `unicode.IsSpace` on the Latin-1 range (the only characters
the checksum subsystem's well-formedness side conditions mention). -/
def goIsSpace (c : Char) : Bool :=
  (c == ' ') || (c == '\t') || (c == '\n') || (c == Char.ofNat 11) ||
  (c == Char.ofNat 12) || (c == '\r') || (c == Char.ofNat 133) || (c == Char.ofNat 160)

/-- Models Go `strings.HasPrefix`. -/
def hasPfx : Str → Str → Bool
  | _, [] => true
  | [], _ :: _ => false
  | c :: cs, p :: ps => (c == p) && hasPfx cs ps

/-- Models Go `strings.TrimPrefix`. -/
def trimPfx (s p : Str) : Str :=
  if hasPfx s p then s.drop p.length else s

/-- Models Go `strings.HasSuffix`. -/
def hasSfx (s p : Str) : Bool := hasPfx s.reverse p.reverse

/-- Models Go `strings.TrimSuffix`. -/
def trimSfx (s p : Str) : Str :=
  if hasSfx s p then s.take (s.length - p.length) else s

/-- Models Go `strings.TrimSpace` (left part). -/
def trimLeftStr (s : Str) : Str := s.dropWhile goIsSpace

/-- Models Go `strings.TrimSpace` (right part). -/
def trimRightStr (s : Str) : Str := (s.reverse.dropWhile goIsSpace).reverse

/-- Models Go `strings.TrimSpace`. -/
def trimStr (s : Str) : Str := trimLeftStr (trimRightStr s)

/-- Accumulator-passing loop of `fieldsStr`; `acc` is the current token,
reversed. -/
def fieldsAux : Str → Str → List Str
  | acc, [] => if acc = [] then [] else [acc.reverse]
  | acc, c :: cs =>
    if goIsSpace c then
      if acc = [] then fieldsAux [] cs else acc.reverse :: fieldsAux [] cs
    else fieldsAux (c :: acc) cs

/-- Models Go `strings.Fields`: maximal runs of non-space characters. -/
def fieldsStr (s : Str) : List Str := fieldsAux [] s

/-- Accumulator-passing loop of `splitNl`; `acc` is the current piece,
reversed. -/
def splitNlAux : Str → Str → List Str
  | acc, [] => [acc.reverse]
  | acc, c :: cs =>
    if c = '\n' then acc.reverse :: splitNlAux [] cs else splitNlAux (c :: acc) cs

/-- Models Go `strings.Split(s, "\n")`. -/
def splitNl (s : Str) : List Str := splitNlAux [] s

/-- Byte-order (= codepoint-order) comparison on strings, modelling the
ordering used by Go `sort.Strings`. -/
def leStr : Str → Str → Bool
  | [], _ => true
  | _ :: _, [] => false
  | a :: as, b :: bs =>
    if a.toNat < b.toNat then true
    else if b.toNat < a.toNat then false
    else leStr as bs

def leStrP (a b : Str) : Prop := leStr a b = true

instance : DecidableRel leStrP := fun a b =>
  inferInstanceAs (Decidable (leStr a b = true))

/-- ASCII lower-casing of one character, modelling Go `strings.ToLower` /
`strings.EqualFold` on the ASCII strings this subsystem compares. -/
def lowerA (c : Char) : Char :=
  if 'A' ≤ c ∧ c ≤ 'Z' then Char.ofNat (c.toNat + 32) else c

/-- Models Go `strings.ToLower` (ASCII fragment). -/
def toLowerStr (s : Str) : Str := s.map lowerA

/-- Models Go `strings.EqualFold` (ASCII fragment). -/
def eqFold (a b : Str) : Bool := toLowerStr a == toLowerStr b

/-! ## Data model (`internal/output/output.go`) -/

/-- Go `output.ColorInfo`. -/
structure ColorInfo where
  hex : Str
  type : Str
  brightness : Int
deriving DecidableEq

/-- Go `output.FontInfo`. -/
structure FontInfo where
  name : Str
  type : Str
deriving DecidableEq

/-- Go `output.cssVar`. -/
structure CssVar where
  name : Str
  value : Str
deriving DecidableEq

/-- Go `output.QuickResult` (the fields the export formatters read). -/
structure QuickResult where
  name : Str
  domain : Str
  logoLight : Str
  logoDark : Str
  favicon : Str
  colors : List ColorInfo
  fonts : List FontInfo
deriving DecidableEq

/-- Occurrence count of a semantic type in a color list: the value of the
`typeCounts` map built by the first loop of `buildColorVariables` /
`buildColorVariablesWithPrefix`. -/
def countColorType (colors : List ColorInfo) (t : Str) : Nat :=
  (colors.filter (fun c => c.type == t)).length

/-- Occurrence count of a semantic type in a font list: the value of the
`typeCounts` map built by the first loop of each font builder. -/
def countFontType (fonts : List FontInfo) (t : Str) : Nat :=
  (fonts.filter (fun f => f.type == t)).length

/-- Pointwise update of a counter map (Go `map[string]int` assignment). -/
def updCnt (m : Str → Nat) (t : Str) (n : Nat) : Str → Nat :=
  fun t2 => if t2 = t then n else m t2

/-- Specification-side variable name of the i-th color entry: stem plus
type, suffixed with the 1-based arrival index of the entry among entries of
its own type exactly when the type collides. -/
def specColorName (pre : Str) (colors : List ColorInfo) (i : Nat) (c : ColorInfo) : Str :=
  if countColorType colors c.type > 1 then
    pre ++ c.type ++ [('-' : Char)] ++ natStr (countColorType (colors.take i) c.type + 1)
  else pre ++ c.type

/-- The emission loop shared verbatim by Go `buildColorVariables` and
`buildColorVariablesWithPrefix`: `counts` is the precomputed `typeCounts`
map, `pre` the variable-name stem (`"--color-"` resp. `"--<prefix>-color-"`),
`idx` the running `typeIndex` map. -/
def buildColorVarsLoop (counts : Str → Nat) (pre : Str) :
    List ColorInfo → (Str → Nat) → List CssVar
  | [], _ => []
  | c :: rest, idx =>
    if counts c.type > 1 then
      let n := idx c.type + 1
      { name := pre ++ c.type ++ [('-' : Char)] ++ natStr n, value := c.hex } ::
        buildColorVarsLoop counts pre rest (updCnt idx c.type n)
    else
      { name := pre ++ c.type, value := c.hex } ::
        buildColorVarsLoop counts pre rest idx

/-- Go `output.buildColorVariables`. -/
def buildColorVariables (colors : List ColorInfo) : List CssVar :=
  buildColorVarsLoop (countColorType colors) (("--color-").toList) colors (fun _ => 0)

/-- Go `output.buildColorVariablesWithPrefix`. -/
def buildColorVariablesWithPfx (colors : List ColorInfo) (pfx : Str) : List CssVar :=
  buildColorVarsLoop (countColorType colors)
    (("--").toList ++ pfx ++ ("-color-").toList) colors (fun _ => 0)

/-- Dedup key of a font entry: Go `f.Name + "|" + f.Type`. -/
def fontKey (f : FontInfo) : Str := f.name ++ [('|' : Char)] ++ f.type

/-- The emission loop shared verbatim by Go `buildFontVariables`,
`buildTailwindFonts`, `buildFontVariablesWithPrefix` and
`buildTailwindFontsNested`: count over the raw list, skip already-`seen`
`(name, type)` keys while iterating, number when `counts > 1`. The two
emitters say what a plain / numbered occurrence renders to. -/
def buildFontsLoop (counts : Str → Nat) (emitPlain : FontInfo → A)
    (emitNum : FontInfo → Nat → A) :
    List FontInfo → List Str → (Str → Nat) → List A
  | [], _, _ => []
  | f :: rest, seen, idx =>
    if fontKey f ∈ seen then buildFontsLoop counts emitPlain emitNum rest seen idx
    else
      if counts f.type > 1 then
        let n := idx f.type + 1
        emitNum f n ::
          buildFontsLoop counts emitPlain emitNum rest (fontKey f :: seen)
            (updCnt idx f.type n)
      else
        emitPlain f ::
          buildFontsLoop counts emitPlain emitNum rest (fontKey f :: seen) idx

/-- Go font value `'<name>', sans-serif`. -/
def cssFontValue (name : Str) : Str :=
  [sq] ++ name ++ [sq] ++ (", sans-serif").toList

/-- Go `output.buildFontVariables`. -/
def buildFontVariables (fonts : List FontInfo) : List CssVar :=
  buildFontsLoop (countFontType fonts)
    (fun f => { name := ("--font-").toList ++ f.type, value := cssFontValue f.name })
    (fun f n => { name := ("--font-").toList ++ f.type ++ [('-' : Char)] ++ natStr n,
                  value := cssFontValue f.name })
    fonts [] (fun _ => 0)

/-- Go `output.buildFontVariablesWithPrefix`. -/
def buildFontVariablesWithPfx (fonts : List FontInfo) (pfx : Str) : List CssVar :=
  buildFontsLoop (countFontType fonts)
    (fun f => { name := ("--").toList ++ pfx ++ ("-font-").toList ++ f.type,
                value := cssFontValue f.name })
    (fun f n => { name := ("--").toList ++ pfx ++ ("-font-").toList ++ f.type ++
                    [('-' : Char)] ++ natStr n,
                  value := cssFontValue f.name })
    fonts [] (fun _ => 0)

/-- Tailwind font entry payload `['"<name>"', 'sans-serif']`. -/
def twFontArr (name : Str) : Str :=
  ("[").toList ++ [sq, '"'] ++ name ++ ['"', sq] ++ (", ").toList ++
    [sq] ++ ("sans-serif").toList ++ [sq] ++ ("]").toList

/-- Go `output.buildTailwindFonts` (four-space indent). -/
def buildTailwindFonts (fonts : List FontInfo) : List Str :=
  buildFontsLoop (countFontType fonts)
    (fun f => ("    ").toList ++ f.type ++ (": ").toList ++ twFontArr f.name ++
      (",\n").toList)
    (fun f n => ("    ").toList ++ f.type ++ natStr n ++ (": ").toList ++
      twFontArr f.name ++ (",\n").toList)
    fonts [] (fun _ => 0)

/-- Go `output.buildTailwindFontsNested` (six-space indent). -/
def buildTailwindFontsNested (fonts : List FontInfo) : List Str :=
  buildFontsLoop (countFontType fonts)
    (fun f => ("      ").toList ++ f.type ++ (": ").toList ++ twFontArr f.name ++
      (",\n").toList)
    (fun f n => ("      ").toList ++ f.type ++ natStr n ++ (": ").toList ++
      twFontArr f.name ++ (",\n").toList)
    fonts [] (fun _ => 0)

/-! ## Config emitters (`internal/output/output.go`) -/

/-- One emitted CSS line `  <name>: <value>;`. -/
def cssLine (v : CssVar) : Str :=
  ("  ").toList ++ v.name ++ (": ").toList ++ v.value ++ (";\n").toList

/-- Go `output.FormatQuickCSS`. -/
def FormatQuickCSS (r : QuickResult) : Str :=
  (":root \x7b\n").toList ++
    (if r.colors.length > 0 then
      ("  /* Colors */\n").toList ++ ((buildColorVariables r.colors).map cssLine).flatten
    else []) ++
    (if r.fonts.length > 0 then
      (if r.colors.length > 0 then [('\n' : Char)] else []) ++
        ("  /* Fonts */\n").toList ++ ((buildFontVariables r.fonts).map cssLine).flatten
    else []) ++
    ("\x7d").toList

/-- The `typeOrder` list of Go `buildTailwindColors` /
`buildTailwindColorsNested`: semantic types in order of first occurrence. -/
def colorTypeOrder : List ColorInfo → List Str → List Str
  | [], _ => []
  | c :: rest, seen =>
    if c.type ∈ seen then colorTypeOrder rest seen
    else c.type :: colorTypeOrder rest (c.type :: seen)

/-- The `typeColors[t]` list of Go `buildTailwindColors`: hex values of a
type in arrival order. -/
def typeHexes (colors : List ColorInfo) (t : Str) : List Str :=
  (colors.filter (fun c => c.type == t)).map (fun c => c.hex)

/-- One Tailwind color entry at indentation `ind`: a plain `t: 'hex',` line
when the type has exactly one value, a nested `t: { 1: 'hex', ... },`
object otherwise. -/
def twColorEntry (ind : Str) (t : Str) (hexes : List Str) : Str :=
  if hexes.length = 1 then
    ind ++ t ++ (": ").toList ++ [sq] ++ hexes.headD [] ++ [sq] ++ (",\n").toList
  else
    ind ++ t ++ (": \x7b\n").toList ++
      (hexes.enum.map (fun p =>
        ind ++ ("  ").toList ++ natStr (p.1 + 1) ++ (": ").toList ++ [sq] ++ p.2 ++
          [sq] ++ (",\n").toList)).flatten ++
      ind ++ ("\x7d,\n").toList

/-- Go `output.buildTailwindColors`. -/
def buildTailwindColors (colors : List ColorInfo) : List Str :=
  (colorTypeOrder colors []).map (fun t => twColorEntry (("    ").toList) t (typeHexes colors t))

/-- Go `output.buildTailwindColorsNested`. -/
def buildTailwindColorsNested (colors : List ColorInfo) : List Str :=
  (colorTypeOrder colors []).map (fun t => twColorEntry (("      ").toList) t (typeHexes colors t))

/-- Go `output.FormatQuickTailwind`. -/
def FormatQuickTailwind (r : QuickResult) : Str :=
  ("// Tailwind CSS config for ").toList ++ r.name ++ [('\n' : Char)] ++
    ("// Add to your tailwind.config.js theme.extend\n").toList ++
    ("module.exports = \x7b\n").toList ++
    (if r.colors.length > 0 then
      ("  colors: \x7b\n").toList ++ (buildTailwindColors r.colors).flatten ++
        ("  \x7d,\n").toList
    else []) ++
    (if r.fonts.length > 0 then
      ("  fontFamily: \x7b\n").toList ++ (buildTailwindFonts r.fonts).flatten ++
        ("  \x7d,\n").toList
    else []) ++
    ("\x7d").toList

/-- Go `output.sanitizeCSSName`: strip known TLDs, then `.` becomes `-`. -/
def sanitizeCSSName (domain : Str) : Str :=
  let n1 := trimSfx domain ((".com").toList)
  let n2 := trimSfx n1 ((".io").toList)
  let n3 := trimSfx n2 ((".org").toList)
  let n4 := trimSfx n3 ((".net").toList)
  let n5 := trimSfx n4 ((".co").toList)
  n5.map (fun c => if c = '.' then '-' else c)

/-- Go `output.sanitizeTailwindKey`: strip known TLDs, then `.` and `-`
become `_`. -/
def sanitizeTailwindKey (domain : Str) : Str :=
  let n1 := trimSfx domain ((".com").toList)
  let n2 := trimSfx n1 ((".io").toList)
  let n3 := trimSfx n2 ((".org").toList)
  let n4 := trimSfx n3 ((".net").toList)
  let n5 := trimSfx n4 ((".co").toList)
  let n6 := n5.map (fun c => if c = '.' then '_' else c)
  n6.map (fun c => if c = '-' then '_' else c)

/-- The per-brand section of Go `FormatQuickCSSBatch`'s multi-entity loop. -/
def cssBrandBlock (r : QuickResult) : Str :=
  ("  /* ").toList ++ r.name ++ (" */\n").toList ++
    (if r.colors.length > 0 then
      ((buildColorVariablesWithPfx r.colors (sanitizeCSSName r.domain)).map cssLine).flatten
    else []) ++
    (if r.fonts.length > 0 then
      ((buildFontVariablesWithPfx r.fonts (sanitizeCSSName r.domain)).map cssLine).flatten
    else [])

/-- Go `output.FormatQuickCSSBatch`. -/
def FormatQuickCSSBatch (results : List QuickResult) : Str :=
  match results with
  | [] => (":root \x7b\n\x7d").toList
  | [r] => FormatQuickCSS r
  | _ =>
    (":root \x7b\n").toList ++
      (results.enum.map (fun p =>
        (if p.1 > 0 then [('\n' : Char)] else []) ++ cssBrandBlock p.2)).flatten ++
      ("\x7d").toList

/-- Go `output.FormatQuickTailwindBatch`. -/
def FormatQuickTailwindBatch (results : List QuickResult) : Str :=
  match results with
  | [] => ("module.exports = \x7b\n\x7d").toList
  | [r] => FormatQuickTailwind r
  | _ =>
    ("// Tailwind CSS config for multiple brands\n").toList ++
      ("// Add to your tailwind.config.js theme.extend\n").toList ++
      ("module.exports = \x7b\n").toList ++
      (if results.any (fun r => r.colors.length > 0) then
        ("  colors: \x7b\n").toList ++
          (results.map (fun r =>
            if r.colors.length = 0 then []
            else ("    ").toList ++ sanitizeTailwindKey r.domain ++ (": \x7b\n").toList ++
              (buildTailwindColorsNested r.colors).flatten ++ ("    \x7d,\n").toList)).flatten ++
          ("  \x7d,\n").toList
      else []) ++
      (if results.any (fun r => r.fonts.length > 0) then
        ("  fontFamily: \x7b\n").toList ++
          (results.map (fun r =>
            if r.fonts.length = 0 then []
            else ("    ").toList ++ sanitizeTailwindKey r.domain ++ (": \x7b\n").toList ++
              (buildTailwindFontsNested r.fonts).flatten ++ ("    \x7d,\n").toList)).flatten ++
          ("  \x7d,\n").toList
      else []) ++
      ("\x7d").toList

/-! ## Checksum engine (`internal/cmd/checksum.go`)

The filesystem is abstracted: the content of a file that the Go code reads
is passed in as an `Option Str` (`none` models a failed read, which is the
only way `parseSHA256Manifest` or `computeSHA256` can fail), and a function
that Go ends by writing a file returns the content it would write. -/

/-- Go `cmd.checksumEntry`. -/
structure ChecksumEntry where
  path : Str
  sum : Str
deriving DecidableEq

/-- Lookup in an association list, modelling Go `m[k]` (`ok` = `isSome`). -/
def lookupA : List (Str × Str) → Str → Option Str
  | [], _ => none
  | (k, v) :: rest, key => if k = key then some v else lookupA rest key

/-- Insertion into an association list, modelling Go `m[k] = v`. -/
def insertMap : List (Str × Str) → Str → Str → List (Str × Str)
  | [], k, v => [(k, v)]
  | (k0, v0) :: rest, k, v =>
    if k0 = k then (k0, v) :: rest else (k0, v0) :: insertMap rest k v

/-- Keys of an association list. -/
def keysOf (m : List (Str × Str)) : List Str := m.map Prod.fst

/-- One line of Go `parseSHA256Manifest`'s loop: `none` when the line is
skipped, otherwise the `(filename, hash)` pair that is stored. -/
def parseManifestLine (line : Str) : Option (Str × Str) :=
  let trimmed := trimStr line
  if trimmed = [] then none
  else if hasPfx trimmed (("#").toList) then none
  else
    match fieldsStr trimmed with
    | hash :: filename :: _ =>
      let f1 := trimPfx filename (("*").toList)
      let f2 := trimPfx f1 (("./").toList)
      if f2 = [] then none else some (f2, hash)
    | _ => none

/-- One iteration of `parseSHA256Manifest`'s loop. -/
def parseStep (m : List (Str × Str)) (line : Str) : List (Str × Str) :=
  match parseManifestLine line with
  | some (f, h) => insertMap m f h
  | none => m

/-- Go `cmd.parseSHA256Manifest` applied to the content of a readable file
(an unreadable file is the `none` case handled by each caller). -/
def parseSHA256Manifest (content : Str) : List (Str × Str) :=
  (splitNl content).foldl parseStep []

/-- The one failure `writeSHA256Manifest` can signal in this model (the
final `os.WriteFile` is abstracted away). -/
inductive ManifestWriteError
  | emptyEntries
deriving DecidableEq

/-- The entry-merging loop of Go `writeSHA256Manifest`: entries with an
empty path or sum are skipped, the rest overwrite by key. -/
def mergeEntries (m0 : List (Str × Str)) (entries : List ChecksumEntry) :
    List (Str × Str) :=
  entries.foldl
    (fun m e => if e.path = [] ∨ e.sum = [] then m else insertMap m e.path e.sum)
    m0

/-- Sort keys in ascending byte order, modelling Go `sort.Strings`. -/
def sortKeys (l : List Str) : List Str := l.insertionSort leStrP

/-- One manifest line `<hex>  <relPath>\n` for a `(relPath, hex)` pair. -/
def renderLine (p : Str × Str) : Str :=
  p.2 ++ ("  ").toList ++ p.1 ++ [('\n' : Char)]

/-- The rendering loop of Go `writeSHA256Manifest`: one
`<hex>  <relPath>\n` line per sorted path. -/
def renderManifest (m : List (Str × Str)) (paths : List Str) : Str :=
  (paths.map (fun name => renderLine (name, (lookupA m name).getD []))).flatten

/-- The starting map of Go `writeSHA256Manifest`: in append mode the parse
of the existing file when readable (a failed read is ignored), otherwise
empty. -/
def manifestBase (existing : Option Str) (app : Bool) : List (Str × Str) :=
  if app then
    match existing with
    | some c => parseSHA256Manifest c
    | none => []
  else []

/-- Go `cmd.writeSHA256Manifest`. `existing` is the content of the file at
the output path if it can be read (`none` models absence or any read
failure, which the Go code silently treats as an empty manifest). -/
def writeSHA256Manifest (existing : Option Str) (entries : List ChecksumEntry)
    (appendExisting : Bool) : Except ManifestWriteError Str :=
  if entries = [] then Except.error ManifestWriteError.emptyEntries
  else
    let merged := mergeEntries (manifestBase existing appendExisting) entries
    let paths := sortKeys (keysOf merged)
    Except.ok (renderManifest merged paths)

/-- Go `filepath.Base` for slash-separated paths. -/
def baseName (p : Str) : Str :=
  if p = [] then [('.' : Char)]
  else
    let p1 := (p.reverse.dropWhile (fun c => c == '/')).reverse
    let p2 := (p1.reverse.takeWhile (fun c => decide (¬ c = '/'))).reverse
    if p2 = [] then [('/' : Char)] else p2

/-- The failures of Go `verifySHA256ManifestEntry`, one constructor per
distinct error message template. -/
inductive VerifyErr
  | noEntry (base : Str)
  | ioErr
  | mismatch (expected : Str)
deriving DecidableEq

/-- First hit of the key-probing loop of Go `verifySHA256ManifestEntry`. -/
def firstLookup (man : List (Str × Str)) : List Str → Option Str
  | [] => none
  | k :: ks =>
    match lookupA man k with
    | some v => some v
    | none => firstLookup man ks

/-- The lookup-key list of Go `verifySHA256ManifestEntry`: the
root-relative path first (when `root` is non-empty and `filepath.Rel`
succeeded with a meaningful result), then the base name. `relResult`
stands for the outcome of `filepath.Rel(root, path)`. -/
def lookupKeys (path root : Str) (relResult : Option Str) : List Str :=
  if root = [] then [baseName path]
  else
    match relResult with
    | some rel =>
      if rel = [] ∨ rel = [('.' : Char)] then [baseName path]
      else [rel, baseName path]
    | none => [baseName path]

/-- The digest comparison tail of Go `verifySHA256ManifestEntry` (its call
into `verifySHA256`): I/O failure propagates, a case-insensitive match of
the computed digest against the trimmed recorded hex succeeds, anything
else is the hash-mismatch error. -/
def checkDigest (digest : Option Str) (expected : Str) : Except VerifyErr Unit :=
  match digest with
  | none => Except.error VerifyErr.ioErr
  | some d =>
    if eqFold d (trimStr expected) then Except.ok ()
    else Except.error (VerifyErr.mismatch expected)

/-- Go `cmd.verifySHA256ManifestEntry`. `digest` stands for the outcome of
`computeSHA256(path)` (`none` = I/O failure), `relResult` for
`filepath.Rel(root, path)`, and `manifest = none` for the nil map. -/
def verifySHA256ManifestEntry (digest : Option Str) (path root : Str)
    (relResult : Option Str) (manifest : Option (List (Str × Str))) :
    Except VerifyErr Unit :=
  match manifest with
  | none => Except.ok ()
  | some man =>
    match firstLookup man (lookupKeys path root relResult) with
    | none => Except.error (VerifyErr.noEntry (baseName path))
    | some expected => checkDigest digest expected

/-- Go `cmd.buildChecksumEntry`'s relative-path choice: `path` relative to
`root` when `root` is non-empty and the relative path is meaningful,
otherwise the base name. -/
def entryPathOf (path root : Str) (relResult : Option Str) : Str :=
  if root = [] then baseName path
  else
    match relResult with
    | some rel => if rel = [] ∨ rel = [('.' : Char)] then baseName path else rel
    | none => baseName path

/-! ## Specification-side characterizations (used to state the claims;
these are deliberately written differently from the implementation). -/

/-- Last-write-wins digest of the new entries for a key, skipping entries
with an empty path or sum exactly as the write loop does. Written as a
direct recursion, independent of the map/sort machinery. -/
def lastEntrySum : List ChecksumEntry → Str → Option Str
  | [], _ => none
  | e :: rest, k =>
    match lastEntrySum rest k with
    | some v => some v
    | none =>
      if ¬ e.path = [] ∧ ¬ e.sum = [] ∧ e.path = k then some e.sum else none

/-- The merged manifest's expected binding for a key: the latest valid new
entry, else the binding parsed from the existing file. -/
def mergeLookup (existing : Option Str) (entries : List ChecksumEntry)
    (k : Str) : Option Str :=
  match lastEntrySum entries k with
  | some v => some v
  | none =>
    match existing with
    | some c => lookupA (parseSHA256Manifest c) k
    | none => none

/-- Last-write-wins lookup over raw key/value pairs (spec side). -/
def lastVal : List (Str × Str) → Str → Option Str
  | [], _ => none
  | p :: rest, k =>
    match lastVal rest k with
    | some v => some v
    | none => if p.1 = k then some p.2 else none

/-- A string that survives the manifest line format: non-empty and free of
whitespace. -/
def wfStr (s : Str) : Prop := ¬ s = [] ∧ ∀ c ∈ s, goIsSpace c = false

/-- A checksum entry that round-trips through the manifest text format:
well-formed path and digest, the path not starting with the `*` or `./`
markers the reader strips, the digest not starting with the `#` comment
marker. -/
def wfEntry (e : ChecksumEntry) : Prop :=
  wfStr e.path ∧ wfStr e.sum ∧
    hasPfx e.path (("*").toList) = false ∧
    hasPfx e.path (("./").toList) = false ∧
    hasPfx e.sum (("#").toList) = false

/-- The pair form of `wfEntry`, for `(relPath, hex)` pairs. -/
def wfPair (p : Str × Str) : Prop :=
  wfStr p.1 ∧ wfStr p.2 ∧
    hasPfx p.1 (("*").toList) = false ∧
    hasPfx p.1 (("./").toList) = false ∧
    hasPfx p.2 (("#").toList) = false

/-! ## Quick command orchestration (`internal/cmd/quick.go`)

Network and filesystem effects are mediated by a `World` of oracles; the
model returns the list of network requests the run performs (its trace)
next to its result, so that ordering claims ("before any network
activity") are statable. -/

/-- Go `output.Format`. -/
inductive Fmt
  | text
  | json
deriving DecidableEq

/-- Go `output.ColorMode`. -/
inductive CMode
  | auto
  | always
  | never
deriving DecidableEq

/-- Go `output.ParseFormat`. -/
def parseFormat (s : Str) : Option Fmt :=
  if toLowerStr s = ("text").toList then some Fmt.text
  else if toLowerStr s = ("json").toList then some Fmt.json
  else none

/-- Go `output.ParseColorMode`. -/
def parseColorMode (s : Str) : Option CMode :=
  if toLowerStr s = ("auto").toList then some CMode.auto
  else if toLowerStr s = ("always").toList then some CMode.always
  else if toLowerStr s = ("never").toList then some CMode.never
  else none

/-- Go `output.ResolveColorMode`. -/
def resolveColorMode (mode : CMode) (format : Fmt) (noColor isTTY : Bool) : Bool :=
  if format = Fmt.json ∨ noColor then false
  else
    match mode with
    | CMode.always => true
    | CMode.never => false
    | CMode.auto => isTTY

/-- The package-level flag variables read by `runQuickCmd`, gathered into a
record (one CLI invocation's configuration). -/
structure QuickConfig where
  outputFormat : Str
  colorMode : Str
  noColorEnv : Bool
  isTTY : Bool
  downloadDir : Str
  cssOutput : Bool
  tailwindOutput : Bool
  sha256Flag : Bool
  manifestPath : Str
  manifestOutPath : Str
  manifestAppend : Bool
  manifestVerify : Bool

/-- Go `cmd.resolveOutput` for a given flag configuration. -/
def resolveOutputCfg (cfg : QuickConfig) : Option (Fmt × Bool) :=
  let formatInput := if cfg.outputFormat = [] then ("text").toList else cfg.outputFormat
  match parseFormat formatInput with
  | none => none
  | some format =>
    let modeInput := if cfg.colorMode = [] then ("auto").toList else cfg.colorMode
    match parseColorMode modeInput with
    | none => none
    | some mode =>
      some (format, resolveColorMode mode format cfg.noColorEnv cfg.isTTY)

/-- A network request issued by the run. -/
inductive Ev
  | fetchBrand (dom : Str)
  | fetchAsset (url : Str)
deriving DecidableEq

/-- A line written to the diagnostic stream by the download loop. -/
inductive Diag
  | fetchFailed (filename : Str)
  | downloaded (destPath : Str)
  | verifyFailed (filename : Str)
deriving DecidableEq

/-- Everything the run can fail with, one constructor per `return err` /
`fmt.Errorf` site of `runQuickCmd` and its callees. -/
inductive QuickErr
  | mutexCssJson
  | mutexTailwindJson
  | mutexTailwindCss
  | allFetchFailed
  | invalidOutputFlags
  | manifestReadFailed
  | mkdirFailed (dir : Str)
  | verifyFailed (e : VerifyErr)
  | manifestWriteFailed (e : ManifestWriteError)
  | manifestRequiresDownload
  | manifestOutRequiresDownload
  | appendWithoutOut
deriving DecidableEq

/-- The oracles standing for the excluded collaborators: the brand API
client, the HTTP asset fetcher, and the filesystem. `fetchAsset` returns
the body bytes on a 200 response and `none` on a transport error or
non-200 status; `relOf` stands for `filepath.Rel`; `digest` for the
SHA-256 of a file's content; `urlExt` for `getExtensionFromURL`. -/
structure World where
  getBrand : Str → Option QuickResult
  fetchAsset : Str → Option Str
  mkdirOK : Str → Bool
  readFile : Str → Option Str
  relOf : Str → Str → Option Str
  digest : Str → Str
  urlExt : Str → Str

/-- Go `filepath.Join` for the clean dir/name shapes this command builds. -/
def joinPath (dir name : Str) : Str := dir ++ [('/' : Char)] ++ name

/-- Go `cmd.sanitizeDirName` (same body as `sanitizeCSSName`). -/
def sanitizeDirName (domain : Str) : Str :=
  let n1 := trimSfx domain ((".com").toList)
  let n2 := trimSfx n1 ((".io").toList)
  let n3 := trimSfx n2 ((".org").toList)
  let n4 := trimSfx n3 ((".net").toList)
  let n5 := trimSfx n4 ((".co").toList)
  n5.map (fun c => if c = '.' then '-' else c)

/-- The `downloads` slice built by `downloadAssetsToDir`: up to three
`(url, filename)` pairs for the non-empty asset slots. -/
def downloadsFor (w : World) (r : QuickResult) : List (Str × Str) :=
  (if ¬ r.logoLight = [] then [(r.logoLight, ("logo-light.svg").toList)] else []) ++
    (if ¬ r.logoDark = [] then [(r.logoDark, ("logo-dark.svg").toList)] else []) ++
    (if ¬ r.favicon = [] then
      [(r.favicon, ("favicon").toList ++ w.urlExt r.favicon)]
    else [])

/-- Result of a download loop: the network trace, the diagnostic lines, the
accumulated manifest entries, and the outcome. -/
structure DlOut where
  evs : List Ev
  diags : List Diag
  entries : List ChecksumEntry
  res : Except QuickErr Unit

/-- The per-asset loop of Go `downloadAssetsToDir`. `root` is the
package-level `downloadDir` flag (used for manifest lookups and entry
paths), `targetDir` the directory assets land in. -/
def downloadLoop (cfg : QuickConfig) (w : World)
    (manifest : Option (List (Str × Str))) (targetDir : Str) :
    List (Str × Str) → DlOut
  | [] => ⟨[], [], [], Except.ok ()⟩
  | (url, fname) :: rest =>
    let destPath := joinPath targetDir fname
    match w.fetchAsset url with
    | none =>
      let o := downloadLoop cfg w manifest targetDir rest
      ⟨Ev.fetchAsset url :: o.evs, Diag.fetchFailed fname :: o.diags, o.entries, o.res⟩
    | some content =>
      let verifyRes :=
        verifySHA256ManifestEntry (some (w.digest content)) destPath cfg.downloadDir
          (w.relOf cfg.downloadDir destPath) manifest
      match verifyRes with
      | Except.error e =>
        if cfg.manifestVerify then
          ⟨[Ev.fetchAsset url],
            [Diag.downloaded destPath, Diag.verifyFailed fname],
            [], Except.error (QuickErr.verifyFailed e)⟩
        else
          let entry : ChecksumEntry :=
            ⟨entryPathOf destPath cfg.downloadDir (w.relOf cfg.downloadDir destPath),
              w.digest content⟩
          let o := downloadLoop cfg w manifest targetDir rest
          ⟨Ev.fetchAsset url :: o.evs,
            Diag.downloaded destPath :: Diag.verifyFailed fname :: o.diags,
            entry :: o.entries, o.res⟩
      | Except.ok _ =>
        let entry : ChecksumEntry :=
          ⟨entryPathOf destPath cfg.downloadDir (w.relOf cfg.downloadDir destPath),
            w.digest content⟩
        let o := downloadLoop cfg w manifest targetDir rest
        ⟨Ev.fetchAsset url :: o.evs, Diag.downloaded destPath :: o.diags,
          entry :: o.entries, o.res⟩

/-- Go `cmd.downloadAssetsToDir`: directory creation failure aborts,
otherwise run the per-asset loop. -/
def downloadAssetsToDir (cfg : QuickConfig) (w : World)
    (manifest : Option (List (Str × Str))) (r : QuickResult) (targetDir : Str) :
    DlOut :=
  if w.mkdirOK targetDir = false then
    ⟨[], [], [], Except.error (QuickErr.mkdirFailed targetDir)⟩
  else downloadLoop cfg w manifest targetDir (downloadsFor w r)

/-- Target directory of one brand inside the batch: a per-brand
subdirectory when the batch has more than one result. -/
def targetDirOf (cfg : QuickConfig) (multi : Bool) (r : QuickResult) : Str :=
  if multi then joinPath cfg.downloadDir (sanitizeDirName r.domain)
  else cfg.downloadDir

/-- The per-brand loop of Go `downloadAssetsBatch` (the `multi` flag is
`len(results) > 1`, computed once on the full batch). -/
def batchLoop (cfg : QuickConfig) (w : World)
    (manifest : Option (List (Str × Str))) (multi : Bool) :
    List QuickResult → DlOut
  | [] => ⟨[], [], [], Except.ok ()⟩
  | r :: rest =>
    let o := downloadAssetsToDir cfg w manifest r (targetDirOf cfg multi r)
    match o.res with
    | Except.error e => ⟨o.evs, o.diags, o.entries, Except.error e⟩
    | Except.ok _ =>
      let o2 := batchLoop cfg w manifest multi rest
      ⟨o.evs ++ o2.evs, o.diags ++ o2.diags, o.entries ++ o2.entries, o2.res⟩

/-- Go `cmd.downloadAssetsBatch`. -/
def downloadAssetsBatch (cfg : QuickConfig) (w : World)
    (manifest : Option (List (Str × Str))) (results : List QuickResult) : DlOut :=
  batchLoop cfg w manifest (results.length > 1) results

/-- The brand-fetch loop of Go `runQuickCmd`: one API request per
identifier, failures reported and skipped. -/
def fetchLoop (w : World) : List Str → List Ev × List QuickResult
  | [] => ([], [])
  | d :: ds =>
    let p := fetchLoop w ds
    (Ev.fetchBrand d :: p.1,
      match w.getBrand d with
      | some r => r :: p.2
      | none => p.2)

/-- Go `cmd.runQuickCmd`, returning the network trace and the outcome.
Writing to stdout cannot fail and is not part of the outcome. -/
def runQuickCmd (cfg : QuickConfig) (args : List Str) (w : World) :
    List Ev × Except QuickErr Unit :=
  if cfg.cssOutput = true ∧ cfg.outputFormat = ("json").toList then
    ([], Except.error QuickErr.mutexCssJson)
  else if cfg.tailwindOutput = true ∧ cfg.outputFormat = ("json").toList then
    ([], Except.error QuickErr.mutexTailwindJson)
  else if cfg.tailwindOutput = true ∧ cfg.cssOutput = true then
    ([], Except.error QuickErr.mutexTailwindCss)
  else
    let fetched := fetchLoop w args
    let evs := fetched.1
    let results := fetched.2
    if results = [] then (evs, Except.error QuickErr.allFetchFailed)
    else
      match resolveOutputCfg cfg with
      | none => (evs, Except.error QuickErr.invalidOutputFlags)
      | some _ =>
        if ¬ cfg.downloadDir = [] then
          match
            (if ¬ cfg.manifestPath = [] then
              match w.readFile cfg.manifestPath with
              | some content => Except.ok (some (parseSHA256Manifest content))
              | none => Except.error QuickErr.manifestReadFailed
            else Except.ok none : Except QuickErr (Option (List (Str × Str)))) with
          | Except.error e => (evs, Except.error e)
          | Except.ok manifest =>
            let o := downloadAssetsBatch cfg w manifest results
            match o.res with
            | Except.error e => (evs ++ o.evs, Except.error e)
            | Except.ok _ =>
              if ¬ cfg.manifestOutPath = [] then
                match writeSHA256Manifest (w.readFile cfg.manifestOutPath) o.entries
                    cfg.manifestAppend with
                | Except.error e =>
                  (evs ++ o.evs, Except.error (QuickErr.manifestWriteFailed e))
                | Except.ok _ => (evs ++ o.evs, Except.ok ())
              else (evs ++ o.evs, Except.ok ())
        else if ¬ cfg.manifestPath = [] then
          (evs, Except.error QuickErr.manifestRequiresDownload)
        else if ¬ cfg.manifestOutPath = [] then
          (evs, Except.error QuickErr.manifestOutRequiresDownload)
        else if cfg.manifestAppend = true then
          (evs, Except.error QuickErr.appendWithoutOut)
        else (evs, Except.ok ())

/-! ## Concrete instances used by counterexamples and witnesses -/

/-- A brand result with no assets, colors or fonts. -/
def cexBrand : QuickResult :=
  ⟨("X").toList, ("x.com").toList, [], [], [], [], []⟩

/-- A world whose brand source always succeeds with `cexBrand` and whose
other oracles are inert. -/
def cexWorld : World :=
  { getBrand := fun _ => some cexBrand
    fetchAsset := fun _ => none
    mkdirOK := fun _ => true
    readFile := fun _ => none
    relOf := fun _ _ => none
    digest := fun _ => []
    urlExt := fun _ => [] }

/-- Flag configuration requesting manifest-append without a manifest
output path (and no download), with default output flags. -/
def cexCfg : QuickConfig :=
  { outputFormat := []
    colorMode := []
    noColorEnv := false
    isTTY := false
    downloadDir := []
    cssOutput := false
    tailwindOutput := false
    sha256Flag := false
    manifestPath := []
    manifestOutPath := []
    manifestAppend := true
    manifestVerify := false }

/-! # Theorems -/

theorem countColorType_cons (c : ColorInfo) (l : List ColorInfo) (t : Str) :
    countColorType (c :: l) t =
      (if c.type = t then 1 else 0) + countColorType l t := by
  simp only [countColorType, List.filter_cons, beq_iff_eq]
  by_cases h : c.type = t
  · simp only [if_pos h, List.length_cons]
    omega
  · simp [h]

theorem buildColorVarsLoop_getElem (counts : Str → Nat) (pre : Str)
    (l : List ColorInfo) :
    ∀ (idx : Str → Nat) (i : Nat),
      (buildColorVarsLoop counts pre l idx)[i]? = (l[i]?).map (fun c =>
        if counts c.type > 1 then
          { name := pre ++ c.type ++ [('-' : Char)] ++
              natStr (idx c.type + countColorType (l.take i) c.type + 1),
            value := c.hex }
        else { name := pre ++ c.type, value := c.hex }) := by
  induction l with
  | nil => intro idx i; simp [buildColorVarsLoop]
  | cons c rest ih =>
    intro idx i
    by_cases hc : counts c.type > 1
    · simp only [buildColorVarsLoop, if_pos hc]
      cases i with
      | zero => simp [hc, countColorType]
      | succ j =>
        simp only [List.getElem?_cons_succ, List.take_succ_cons]
        rw [ih]
        cases h : rest[j]? with
        | none => rfl
        | some c2 =>
          simp only [Option.map_some']
          have harith : updCnt idx c.type (idx c.type + 1) c2.type +
              countColorType (rest.take j) c2.type + 1 =
              idx c2.type + countColorType (c :: rest.take j) c2.type + 1 := by
            rw [countColorType_cons]
            unfold updCnt
            by_cases ht : c2.type = c.type
            · rw [if_pos ht, if_pos ht.symm, ht]
              omega
            · rw [if_neg ht, if_neg (fun hh => ht hh.symm)]
              omega
          rw [harith]
    · simp only [buildColorVarsLoop, if_neg hc]
      cases i with
      | zero => simp [hc]
      | succ j =>
        simp only [List.getElem?_cons_succ, List.take_succ_cons]
        rw [ih]
        cases h : rest[j]? with
        | none => rfl
        | some c2 =>
          simp only [Option.map_some']
          by_cases hc2 : counts c2.type > 1
          · have ht : ¬ c.type = c2.type := by
              intro hh
              rw [hh] at hc
              exact hc hc2
            rw [countColorType_cons, if_neg ht, Nat.zero_add]
          · simp [if_neg hc2]

theorem buildColorVarsLoop_length (counts : Str → Nat) (pre : Str)
    (l : List ColorInfo) :
    ∀ idx : Str → Nat, (buildColorVarsLoop counts pre l idx).length = l.length := by
  induction l with
  | nil => intro idx; simp [buildColorVarsLoop]
  | cons c rest ih =>
    intro idx
    by_cases hc : counts c.type > 1
    · simp [buildColorVarsLoop, if_pos hc, ih]
    · simp [buildColorVarsLoop, if_neg hc, ih]

/-- C1. Color variable allocation: both `buildColorVariables` and
`buildColorVariablesWithPrefix` emit exactly one variable per color entry
in arrival order; an entry whose semantic type occurs exactly once in the
sequence is named `<stem><type>` with no numeric suffix, and an entry of a
type occurring more than once is named `<stem><type>-<n>` where `n` is its
1-based arrival index among entries of its own type — so a colliding type
is numbered `1..k` in arrival order and entries of every other type are
unaffected (their name depends only on their own type's occurrences). -/
theorem colorVariables_allocation :
    ∀ (colors : List ColorInfo) (pfx : Str),
      (buildColorVariables colors).length = colors.length ∧
      (buildColorVariablesWithPfx colors pfx).length = colors.length ∧
      ∀ i : Nat,
        (buildColorVariables colors)[i]? =
          (colors[i]?).map (fun c =>
            { name := specColorName (("--color-").toList) colors i c, value := c.hex }) ∧
        (buildColorVariablesWithPfx colors pfx)[i]? =
          (colors[i]?).map (fun c =>
            { name := specColorName (("--").toList ++ pfx ++ ("-color-").toList) colors i c,
              value := c.hex }) := by
  intro colors pfx
  refine ⟨buildColorVarsLoop_length _ _ _ _, buildColorVarsLoop_length _ _ _ _, ?_⟩
  intro i
  constructor
  · rw [buildColorVariables, buildColorVarsLoop_getElem]
    cases h : colors[i]? with
    | none => simp
    | some c =>
      simp only [Option.map_some', specColorName, Nat.zero_add]
      split <;> rfl
  · rw [buildColorVariablesWithPfx, buildColorVarsLoop_getElem]
    cases h : colors[i]? with
    | none => simp
    | some c =>
      simp only [Option.map_some', specColorName, Nat.zero_add]
      split <;> rfl

theorem countFontType_append_one (l : List FontInfo) (f : FontInfo) (t : Str) :
    countFontType (l ++ [f]) t =
      countFontType l t + (if f.type = t then 1 else 0) := by
  simp only [countFontType, List.filter_append, List.length_append]
  by_cases h : f.type = t
  · simp [List.filter, h]
  · have hb : (f.type == t) = false := beq_eq_false_iff_ne.mpr h
    simp [List.filter, hb]
    exact h

theorem buildFontsLoop_congr_counts {A : Type} (counts counts2 : Str → Nat)
    (e1 : FontInfo → A) (e2 : FontInfo → Nat → A)
    (hc : ∀ t, (counts t > 1) ↔ (counts2 t > 1)) :
    ∀ (l : List FontInfo) (seen : List Str) (idx : Str → Nat),
      buildFontsLoop counts e1 e2 l seen idx =
        buildFontsLoop counts2 e1 e2 l seen idx := by
  intro l
  induction l with
  | nil => intro seen idx; rfl
  | cons f rest ih =>
    intro seen idx
    by_cases hs : fontKey f ∈ seen
    · simp [buildFontsLoop, hs, ih]
    · by_cases hb : counts f.type > 1
      · have hb2 : counts2 f.type > 1 := (hc f.type).mp hb
        simp [buildFontsLoop, hs, hb, hb2, ih]
      · have hb2 : ¬ counts2 f.type > 1 := fun hh => hb ((hc f.type).mpr hh)
        simp [buildFontsLoop, hs, hb, hb2, ih]

theorem buildFontsLoop_append_seen {A : Type} (counts : Str → Nat)
    (e1 : FontInfo → A) (e2 : FontInfo → Nat → A) (f : FontInfo) :
    ∀ (l : List FontInfo) (seen : List Str) (idx : Str → Nat),
      (fontKey f ∈ seen ∨ fontKey f ∈ l.map fontKey) →
      buildFontsLoop counts e1 e2 (l ++ [f]) seen idx =
        buildFontsLoop counts e1 e2 l seen idx := by
  intro l
  induction l with
  | nil =>
    intro seen idx h
    have hs : fontKey f ∈ seen := by
      rcases h with h | h
      · exact h
      · simp at h
    simp [buildFontsLoop, hs]
  | cons g rest ih =>
    intro seen idx h
    by_cases hg : fontKey g ∈ seen
    · have h2 : fontKey f ∈ seen ∨ fontKey f ∈ rest.map fontKey := by
        rcases h with h | h
        · exact Or.inl h
        · rcases List.mem_cons.mp h with h | h
          · exact Or.inl (h ▸ hg)
          · exact Or.inr h
      simp [buildFontsLoop, hg, ih _ _ h2]
    · have h2 : fontKey f ∈ (fontKey g :: seen) ∨ fontKey f ∈ rest.map fontKey := by
        rcases h with h | h
        · exact Or.inl (List.mem_cons_of_mem _ h)
        · rcases List.mem_cons.mp h with h | h
          · exact Or.inl (h ▸ List.mem_cons_self _ _)
          · exact Or.inr h
      by_cases hb : counts g.type > 1
      · simp [buildFontsLoop, hg, hb, ih _ _ h2]
      · simp [buildFontsLoop, hg, hb, ih _ _ h2]

/-- C2 counterexample. Appending an exact `(name, semanticType)` duplicate
of a unique font does change the emitted variable/key set: the occurrence
counts are taken over the raw list before de-duplication, so the single
emitted `body` entry gains the numeric suffix `-1` (resp. key `body1`). -/
theorem fontDedup_not_idempotent :
    buildFontVariables
        [⟨("Arial").toList, ("body").toList⟩, ⟨("Arial").toList, ("body").toList⟩] ≠
      buildFontVariables [⟨("Arial").toList, ("body").toList⟩] ∧
    buildTailwindFonts
        [⟨("Arial").toList, ("body").toList⟩, ⟨("Arial").toList, ("body").toList⟩] ≠
      buildTailwindFonts [⟨("Arial").toList, ("body").toList⟩] := by
  exact ⟨by decide, by decide⟩

/-- C2 amended. Appending an exact `(name, semanticType)` duplicate of a
present entry leaves the emitted variables/keys unchanged (in both the flat
CSS format and the nested module format) whenever the entry's semantic type
already occurs more than once in the list; only a type occurring exactly
once changes (its lone variable gains a numeric suffix), because duplicate
`(name, semanticType)` pairs are skipped during emission but the occurrence
counting that decides numeric suffixing runs over the raw sequence before
de-duplication. -/
theorem fontDedup_append_collided :
    ∀ (fonts : List FontInfo) (f : FontInfo),
      f ∈ fonts → 2 ≤ countFontType fonts f.type →
      buildFontVariables (fonts ++ [f]) = buildFontVariables fonts ∧
      buildTailwindFonts (fonts ++ [f]) = buildTailwindFonts fonts := by
  intro fonts f hm hcnt
  have hiff : ∀ t, (countFontType (fonts ++ [f]) t > 1) ↔ (countFontType fonts t > 1) := by
    intro t
    rw [countFontType_append_one]
    by_cases ht : f.type = t
    · rw [if_pos ht, ← ht]
      omega
    · rw [if_neg ht]
      omega
  have hkey : fontKey f ∈ fonts.map fontKey := List.mem_map_of_mem _ hm
  constructor
  · unfold buildFontVariables
    rw [buildFontsLoop_congr_counts _ _ _ _ hiff]
    exact buildFontsLoop_append_seen _ _ _ _ _ _ _ (Or.inr hkey)
  · unfold buildTailwindFonts
    rw [buildFontsLoop_congr_counts _ _ _ _ hiff]
    exact buildFontsLoop_append_seen _ _ _ _ _ _ _ (Or.inr hkey)

/-- Witness for the amended C2 theorem at a concrete colliding list. -/
theorem fontDedup_append_collided_witness :
    buildFontVariables
        ([⟨("Roboto").toList, ("body").toList⟩, ⟨("Open Sans").toList, ("body").toList⟩] ++
          [⟨("Roboto").toList, ("body").toList⟩]) =
      buildFontVariables
        [⟨("Roboto").toList, ("body").toList⟩, ⟨("Open Sans").toList, ("body").toList⟩] ∧
    buildTailwindFonts
        ([⟨("Roboto").toList, ("body").toList⟩, ⟨("Open Sans").toList, ("body").toList⟩] ++
          [⟨("Roboto").toList, ("body").toList⟩]) =
      buildTailwindFonts
        [⟨("Roboto").toList, ("body").toList⟩, ⟨("Open Sans").toList, ("body").toList⟩] :=
  fontDedup_append_collided _ _ (by decide) (by decide)

/-- C9. Batch/single export agreement: for both the flat CSS format and the
nested module format, batch export over exactly one entity is byte-identical
to the single-entity (unnamespaced) export of that entity, and batch export
over zero entities yields the empty-but-well-formed delimiters-only
block/module. -/
theorem batch_single_export_agreement :
    ∀ r : QuickResult,
      FormatQuickCSSBatch [] = (":root \x7b\n\x7d").toList ∧
      FormatQuickTailwindBatch [] = ("module.exports = \x7b\n\x7d").toList ∧
      FormatQuickCSSBatch [r] = FormatQuickCSS r ∧
      FormatQuickTailwindBatch [r] = FormatQuickTailwind r :=
  fun r => ⟨rfl, rfl, rfl, rfl⟩

/-- C5 counterexample: `writeSHA256Manifest` rejects an empty entry list
also in append mode (the emptiness check precedes and ignores the append
flag), contradicting the claim that the rejection happens only when
`append` is false. -/
theorem writeManifest_empty_append_cex :
    writeSHA256Manifest (some (("ff  a\n").toList)) [] true =
      Except.error ManifestWriteError.emptyEntries := rfl

/-- C5 amended: the write fails with the empty-entries validation error
exactly when the entry list is empty, regardless of the append flag. -/
theorem writeManifest_empty_iff :
    ∀ (existing : Option Str) (entries : List ChecksumEntry) (app : Bool),
      writeSHA256Manifest existing entries app =
          Except.error ManifestWriteError.emptyEntries ↔
        entries = [] := by
  intro existing entries app
  constructor
  · intro h
    by_contra hne
    simp [writeSHA256Manifest, hne] at h
  · intro h
    simp [writeSHA256Manifest, h]

/-- C10. In append mode a failed read of the existing manifest file at the
output path — absence or an unreadable file alike, both modelled by
`existing = none` — is silently treated as an empty existing manifest: the
write proceeds exactly as a fresh non-append write of the new entries and
no I/O error is propagated. -/
theorem manifest_append_unreadable_as_empty :
    ∀ entries : List ChecksumEntry, ¬ entries = [] →
      writeSHA256Manifest none entries true = writeSHA256Manifest none entries false ∧
      ∃ out, writeSHA256Manifest none entries true = Except.ok out := by
  intro entries h
  constructor
  · simp [writeSHA256Manifest, manifestBase]
  · simp [writeSHA256Manifest, h]

/-- Witness for the C10 theorem at a concrete one-entry list. -/
theorem manifest_append_unreadable_as_empty_witness :
    writeSHA256Manifest none [⟨("a").toList, ("ff").toList⟩] true =
        writeSHA256Manifest none [⟨("a").toList, ("ff").toList⟩] false ∧
      ∃ out, writeSHA256Manifest none [⟨("a").toList, ("ff").toList⟩] true =
        Except.ok out :=
  manifest_append_unreadable_as_empty _ (by decide)

theorem pairwiseAnd {α : Type} {R S : α → α → Prop} :
    ∀ {l : List α}, l.Pairwise R → l.Pairwise S →
      l.Pairwise fun a b => R a b ∧ S a b := by
  intro l h1 h2
  induction l with
  | nil => exact List.Pairwise.nil
  | cons a tl ih =>
    cases h1 with
    | cons ha h1b =>
      cases h2 with
      | cons hb h2b =>
        exact List.Pairwise.cons (fun x hx => ⟨ha x hx, hb x hx⟩) (ih h1b h2b)

theorem lookupA_insertMap (m : List (Str × Str)) (k v key : Str) :
    lookupA (insertMap m k v) key = if k = key then some v else lookupA m key := by
  induction m with
  | nil =>
    by_cases h : k = key
    · simp [insertMap, lookupA, h]
    · simp [insertMap, lookupA, h]
  | cons p rest ih =>
    obtain ⟨k0, v0⟩ := p
    by_cases h0 : k0 = k
    · subst h0
      by_cases h : k0 = key
      · simp [insertMap, lookupA, h]
      · simp [insertMap, lookupA, h]
    · simp only [insertMap, if_neg h0]
      by_cases h : k0 = key
      · subst h
        have hk : ¬ k = k0 := fun hk => h0 hk.symm
        simp [lookupA, hk]
      · simp [lookupA, h, ih]

theorem insertMap_cons (k0 v0 k v : Str) (rest : List (Str × Str)) :
    insertMap ((k0, v0) :: rest) k v =
      if k0 = k then (k0, v) :: rest else (k0, v0) :: insertMap rest k v := rfl

theorem lookupA_cons (k0 v0 key : Str) (rest : List (Str × Str)) :
    lookupA ((k0, v0) :: rest) key =
      if k0 = key then some v0 else lookupA rest key := rfl

theorem mem_keysOf_insertMap (m : List (Str × Str)) (k v x : Str) :
    x ∈ keysOf (insertMap m k v) ↔ x ∈ keysOf m ∨ x = k := by
  induction m with
  | nil => simp [insertMap, keysOf]
  | cons p rest ih =>
    obtain ⟨k0, v0⟩ := p
    by_cases h0 : k0 = k
    · rw [insertMap_cons, if_pos h0]
      simp only [keysOf, List.map_cons, List.mem_cons]
      rw [h0]
      tauto
    · rw [insertMap_cons, if_neg h0]
      simp only [keysOf, List.map_cons, List.mem_cons]
      rw [show List.map Prod.fst (insertMap rest k v) = keysOf (insertMap rest k v) from rfl]
      rw [ih]
      simp only [keysOf]
      tauto

theorem nodup_keysOf_insertMap (m : List (Str × Str)) (k v : Str)
    (h : (keysOf m).Nodup) : (keysOf (insertMap m k v)).Nodup := by
  induction m with
  | nil => simp [insertMap, keysOf]
  | cons p rest ih =>
    obtain ⟨k0, v0⟩ := p
    simp only [keysOf, List.map_cons, List.nodup_cons] at h
    by_cases h0 : k0 = k
    · simp only [insertMap, if_pos h0, keysOf, List.map_cons, List.nodup_cons]
      exact h
    · simp only [insertMap, if_neg h0, keysOf, List.map_cons, List.nodup_cons]
      refine ⟨?_, ih h.2⟩
      intro hmem
      rw [show List.map Prod.fst (insertMap rest k v) = keysOf (insertMap rest k v) from rfl,
        mem_keysOf_insertMap] at hmem
      rcases hmem with hmem | hmem
      · exact h.1 hmem
      · exact h0 hmem

theorem lookupA_eq_none_iff (m : List (Str × Str)) (k : Str) :
    lookupA m k = none ↔ ¬ k ∈ keysOf m := by
  induction m with
  | nil => simp [lookupA, keysOf]
  | cons p rest ih =>
    obtain ⟨k0, v0⟩ := p
    by_cases h : k0 = k
    · rw [lookupA_cons, if_pos h]
      simp only [keysOf, List.map_cons, List.mem_cons]
      rw [h]
      simp
    · rw [lookupA_cons, if_neg h]
      simp only [keysOf, List.map_cons, List.mem_cons]
      rw [ih]
      simp only [keysOf]
      constructor
      · intro hk hor
        rcases hor with hor | hor
        · exact h hor.symm
        · exact hk hor
      · intro hk hmem
        exact hk (Or.inr hmem)

theorem lookupA_mem_iff (m : List (Str × Str)) (k v : Str)
    (hnd : (keysOf m).Nodup) : lookupA m k = some v ↔ (k, v) ∈ m := by
  induction m with
  | nil => simp [lookupA]
  | cons p rest ih =>
    obtain ⟨k0, v0⟩ := p
    simp only [keysOf, List.map_cons, List.nodup_cons] at hnd
    by_cases h : k0 = k
    · rw [lookupA_cons, if_pos h]
      simp only [List.mem_cons]
      constructor
      · intro hv
        have hv0 : v0 = v := Option.some.inj hv
        exact Or.inl (by rw [Prod.mk.injEq]; exact ⟨h.symm, hv0.symm⟩)
      · intro hv
        rcases hv with hv | hv
        · rw [Prod.mk.injEq] at hv
          rw [hv.2]
        · exact absurd (h ▸ List.mem_map_of_mem Prod.fst hv) hnd.1
    · rw [lookupA_cons, if_neg h]
      simp only [List.mem_cons]
      rw [ih hnd.2]
      constructor
      · exact fun hm => Or.inr hm
      · intro hm
        rcases hm with hm | hm
        · rw [Prod.mk.injEq] at hm
          exact absurd hm.1.symm h
        · exact hm

theorem leStr_total : ∀ a b : Str, leStr a b = true ∨ leStr b a = true := by
  intro a
  induction a with
  | nil => intro b; left; rfl
  | cons x xs ih =>
    intro b
    cases b with
    | nil => right; rfl
    | cons y ys =>
      by_cases h1 : x.toNat < y.toNat
      · left
        simp [leStr, h1]
      · by_cases h2 : y.toNat < x.toNat
        · right
          simp [leStr, h2]
        · rcases ih ys with h | h
          · left
            simp [leStr, h1, h2, h]
          · right
            simp [leStr, h1, h2, h]

theorem leStr_trans : ∀ a b c : Str,
    leStr a b = true → leStr b c = true → leStr a c = true := by
  intro a
  induction a with
  | nil => intro b c _ _; rfl
  | cons x xs ih =>
    intro b c hab hbc
    cases b with
    | nil => simp [leStr] at hab
    | cons y ys =>
      cases c with
      | nil => simp [leStr] at hbc
      | cons z zs =>
        simp only [leStr] at hab hbc ⊢
        by_cases h1 : x.toNat < y.toNat
        · by_cases h2 : y.toNat < z.toNat
          · have hxz : x.toNat < z.toNat := Nat.lt_trans h1 h2
            simp [hxz]
          · by_cases h3 : z.toNat < y.toNat
            · simp [h2, h3] at hbc
            · have hyz : y.toNat = z.toNat :=
                Nat.le_antisymm (Nat.not_lt.mp h3) (Nat.not_lt.mp h2)
              have hxz : x.toNat < z.toNat := hyz ▸ h1
              simp [hxz]
        · by_cases h1b : y.toNat < x.toNat
          · simp [h1, h1b] at hab
          · have hxy : x.toNat = y.toNat :=
              Nat.le_antisymm (Nat.not_lt.mp h1b) (Nat.not_lt.mp h1)
            simp only [if_neg h1, if_neg h1b] at hab
            by_cases h2 : y.toNat < z.toNat
            · have hxz : x.toNat < z.toNat := hxy ▸ h2
              simp [hxz]
            · by_cases h3 : z.toNat < y.toNat
              · simp [h2, h3] at hbc
              · simp only [if_neg h2, if_neg h3] at hbc
                have hyz : y.toNat = z.toNat :=
                  Nat.le_antisymm (Nat.not_lt.mp h3) (Nat.not_lt.mp h2)
                have hxz1 : ¬ x.toNat < z.toNat := by omega
                have hxz2 : ¬ z.toNat < x.toNat := by omega
                simp only [if_neg hxz1, if_neg hxz2]
                exact ih ys zs hab hbc

theorem sortKeys_perm (l : List Str) : List.Perm (sortKeys l) l :=
  List.perm_insertionSort leStrP l

theorem sortKeys_sorted (l : List Str) : List.Sorted leStrP (sortKeys l) := by
  haveI : IsTotal Str leStrP := ⟨leStr_total⟩
  haveI : IsTrans Str leStrP := ⟨leStr_trans⟩
  exact List.sorted_insertionSort leStrP l

theorem lookupA_mergeEntries (entries : List ChecksumEntry) :
    ∀ (m0 : List (Str × Str)) (k : Str),
      lookupA (mergeEntries m0 entries) k =
        match lastEntrySum entries k with
        | some v => some v
        | none => lookupA m0 k := by
  induction entries with
  | nil => intro m0 k; rfl
  | cons e rest ih =>
    intro m0 k
    have hm : mergeEntries m0 (e :: rest) =
        mergeEntries (if e.path = [] ∨ e.sum = [] then m0 else insertMap m0 e.path e.sum)
          rest := rfl
    rw [hm, ih]
    cases hl : lastEntrySum rest k with
    | some v => simp [lastEntrySum, hl]
    | none =>
      simp only [lastEntrySum, hl]
      by_cases hv : e.path = [] ∨ e.sum = []
      · rw [if_pos hv]
        have hcond : ¬ (¬ e.path = [] ∧ ¬ e.sum = [] ∧ e.path = k) := by tauto
        rw [if_neg hcond]
      · rw [if_neg hv, lookupA_insertMap]
        push_neg at hv
        by_cases hk : e.path = k
        · rw [if_pos hk, if_pos ⟨hv.1, hv.2, hk⟩]
        · rw [if_neg hk, if_neg (by tauto)]

theorem nodup_mergeEntries (entries : List ChecksumEntry) :
    ∀ m0 : List (Str × Str), (keysOf m0).Nodup →
      (keysOf (mergeEntries m0 entries)).Nodup := by
  induction entries with
  | nil => intro m0 h; exact h
  | cons e rest ih =>
    intro m0 h
    have hm : mergeEntries m0 (e :: rest) =
        mergeEntries (if e.path = [] ∨ e.sum = [] then m0 else insertMap m0 e.path e.sum)
          rest := rfl
    rw [hm]
    by_cases hv : e.path = [] ∨ e.sum = []
    · rw [if_pos hv]
      exact ih m0 h
    · rw [if_neg hv]
      exact ih _ (nodup_keysOf_insertMap _ _ _ h)

theorem nodup_parseStep (m : List (Str × Str)) (line : Str)
    (h : (keysOf m).Nodup) : (keysOf (parseStep m line)).Nodup := by
  unfold parseStep
  cases parseManifestLine line with
  | none => exact h
  | some p => exact nodup_keysOf_insertMap _ _ _ h

theorem nodup_foldl_parseStep (lines : List Str) :
    ∀ m0 : List (Str × Str), (keysOf m0).Nodup →
      (keysOf (lines.foldl parseStep m0)).Nodup := by
  induction lines with
  | nil => intro m0 h; exact h
  | cons line rest ih =>
    intro m0 h
    exact ih _ (nodup_parseStep _ _ h)

theorem nodup_parseSHA256Manifest (content : Str) :
    (keysOf (parseSHA256Manifest content)).Nodup :=
  nodup_foldl_parseStep _ [] (by simp [keysOf])

theorem nodup_manifestBase (existing : Option Str) (app : Bool) :
    (keysOf (manifestBase existing app)).Nodup := by
  unfold manifestBase
  by_cases h : app = true
  · rw [if_pos h]
    cases existing with
    | none => simp [keysOf]
    | some c => exact nodup_parseSHA256Manifest c
  · rw [if_neg h]
    simp [keysOf]

theorem lastEntrySum_mem (entries : List ChecksumEntry) (k v : Str) :
    lastEntrySum entries k = some v →
      ∃ e, e ∈ entries ∧ e.path = k ∧ e.sum = v ∧ ¬ e.path = [] ∧ ¬ e.sum = [] := by
  induction entries with
  | nil => intro h; simp [lastEntrySum] at h
  | cons e rest ih =>
    intro h
    simp only [lastEntrySum] at h
    cases hl : lastEntrySum rest k with
    | some v2 =>
      rw [hl] at h
      have hv2 : v2 = v := by injection h
      obtain ⟨e2, he2, h1, h2, h3, h4⟩ := ih (hv2 ▸ hl)
      exact ⟨e2, List.mem_cons_of_mem _ he2, h1, h2, h3, h4⟩
    | none =>
      rw [hl] at h
      by_cases hc : ¬ e.path = [] ∧ ¬ e.sum = [] ∧ e.path = k
      · rw [if_pos hc] at h
        have hv : e.sum = v := by injection h
        exact ⟨e, List.mem_cons_self _ _, hc.2.2, hv, hc.1, hc.2.1⟩
      · rw [if_neg hc] at h
        cases h

theorem mem_keysOf_iff_lookup (m : List (Str × Str)) (k : Str) :
    k ∈ keysOf m ↔ ∃ v, lookupA m k = some v := by
  constructor
  · intro h
    cases hv : lookupA m k with
    | none =>
      exfalso
      exact (lookupA_eq_none_iff m k).mp hv h
    | some v => exact ⟨v, rfl⟩
  · intro ⟨v, hv⟩
    by_contra hk
    rw [← lookupA_eq_none_iff] at hk
    rw [hk] at hv
    cases hv

theorem writeManifest_char (existing : Option Str) (entries : List ChecksumEntry)
    (app : Bool) (h : ¬ entries = []) :
    ∃ lines : List (Str × Str),
      writeSHA256Manifest existing entries app =
          Except.ok ((lines.map renderLine).flatten) ∧
        List.Pairwise (fun p q : Str × Str => leStrP p.1 q.1 ∧ ¬ p.1 = q.1) lines ∧
        ∀ k v, ((k, v) ∈ lines ↔
          lookupA (mergeEntries (manifestBase existing app) entries) k = some v) := by
  refine ⟨(sortKeys (keysOf (mergeEntries (manifestBase existing app) entries))).map
    (fun k2 => (k2, (lookupA (mergeEntries (manifestBase existing app) entries) k2).getD [])),
    ?_, ?_, ?_⟩
  · rw [writeSHA256Manifest, if_neg h]
    simp only [renderManifest, List.map_map]
    rfl
  · have hnd : (keysOf (mergeEntries (manifestBase existing app) entries)).Nodup :=
      nodup_mergeEntries _ _ (nodup_manifestBase existing app)
    have hndp : (sortKeys (keysOf (mergeEntries (manifestBase existing app) entries))).Nodup :=
      (sortKeys_perm _).nodup_iff.mpr hnd
    have hsort := sortKeys_sorted (keysOf (mergeEntries (manifestBase existing app) entries))
    rw [List.pairwise_map]
    exact pairwiseAnd hsort hndp
  · intro k v
    have hnd : (keysOf (mergeEntries (manifestBase existing app) entries)).Nodup :=
      nodup_mergeEntries _ _ (nodup_manifestBase existing app)
    constructor
    · intro hm
      rcases List.mem_map.mp hm with ⟨k2, hk2, heq⟩
      have hk : k2 = k := congrArg Prod.fst heq
      subst hk
      have hmem : k2 ∈ keysOf (mergeEntries (manifestBase existing app) entries) :=
        (sortKeys_perm _).mem_iff.mp hk2
      rcases (mem_keysOf_iff_lookup _ _).mp hmem with ⟨v2, hv2⟩
      have hv : v = v2 := by
        have := congrArg Prod.snd heq
        simp only at this
        rw [← this, hv2]
        rfl
      rw [hv2, hv]
    · intro hl
      have hmem : k ∈ keysOf (mergeEntries (manifestBase existing app) entries) :=
        (mem_keysOf_iff_lookup _ _).mpr ⟨v, hl⟩
      have hk2 : k ∈ sortKeys (keysOf (mergeEntries (manifestBase existing app) entries)) :=
        (sortKeys_perm _).mem_iff.mpr hmem
      refine List.mem_map.mpr ⟨k, hk2, ?_⟩
      rw [hl]
      rfl

/-- C3 counterexample. A new entry does not always overwrite the existing
entry with the same relative path: an entry whose digest is empty is
skipped by the write loop, so appending `("a", "")` over an existing
manifest `"1  a\n"` leaves the old binding `a ↦ 1` in place instead of
producing the overwritten line `"  a\n"`. -/
theorem writeManifest_merge_cex :
    writeSHA256Manifest (some (("1  a\n").toList)) [⟨("a").toList, []⟩] true =
        Except.ok (("1  a\n").toList) ∧
      ¬ (("1  a\n").toList = ("  a\n").toList) :=
  ⟨rfl, by decide⟩

/-- C3 amended. Manifest write in append mode is a sorted last-write-wins
merge, except that new entries with an empty relative path or an empty
digest are skipped: the output is one `<hex>  <relPath>` line per merged
binding, strictly sorted by relative path ascending regardless of input
order, and a key is bound to the digest of the latest valid new entry with
that path, else to the binding parsed from the existing file (absence or an
unreadable existing file counting as empty). -/
theorem writeManifest_append_merge :
    ∀ (existing : Option Str) (entries : List ChecksumEntry), ¬ entries = [] →
      ∃ lines : List (Str × Str),
        writeSHA256Manifest existing entries true =
            Except.ok ((lines.map renderLine).flatten) ∧
          List.Pairwise (fun p q : Str × Str => leStrP p.1 q.1 ∧ ¬ p.1 = q.1) lines ∧
          ∀ k v, ((k, v) ∈ lines ↔ mergeLookup existing entries k = some v) := by
  intro existing entries h
  obtain ⟨lines, h1, h2, h3⟩ := writeManifest_char existing entries true h
  refine ⟨lines, h1, h2, ?_⟩
  intro k v
  rw [h3 k v, lookupA_mergeEntries]
  unfold mergeLookup
  cases lastEntrySum entries k with
  | some v2 => rfl
  | none =>
    unfold manifestBase
    cases existing with
    | none => simp [lookupA]
    | some c => simp

/-- Witness for the amended C3 theorem at a concrete append. -/
theorem writeManifest_append_merge_witness :
    ∃ lines : List (Str × Str),
      writeSHA256Manifest (some (("1  a\n").toList))
            [⟨("b").toList, ("2").toList⟩] true =
          Except.ok ((lines.map renderLine).flatten) ∧
        List.Pairwise (fun p q : Str × Str => leStrP p.1 q.1 ∧ ¬ p.1 = q.1) lines ∧
        ∀ k v, ((k, v) ∈ lines ↔
          mergeLookup (some (("1  a\n").toList))
            [⟨("b").toList, ("2").toList⟩] k = some v) :=
  writeManifest_append_merge _ _ (by decide)

theorem splitNlAux_append (l : Str) :
    ∀ (acc rest : Str), (∀ c ∈ l, ¬ c = '\n') →
      splitNlAux acc (l ++ rest) = splitNlAux (l.reverse ++ acc) rest := by
  induction l with
  | nil => intro acc rest _; simp
  | cons c cs ih =>
    intro acc rest h
    have hc : ¬ c = '\n' := h c (List.mem_cons_self _ _)
    simp only [List.cons_append, splitNlAux, if_neg hc]
    rw [show cs.append rest = cs ++ rest from rfl]
    rw [ih (c :: acc) rest (fun x hx => h x (List.mem_cons_of_mem _ hx))]
    simp

theorem splitNl_lines (lines : List Str)
    (h : ∀ l ∈ lines, ∀ c ∈ l, ¬ c = '\n') :
    splitNl ((lines.map (fun l => l ++ [('\n' : Char)])).flatten) = lines ++ [[]] := by
  induction lines with
  | nil => rfl
  | cons l rest ih =>
    simp only [List.map_cons, List.flatten_cons]
    rw [splitNl, List.append_assoc, List.singleton_append]
    rw [splitNlAux_append l [] (('\n' : Char) :: (rest.map (fun l => l ++ [('\n' : Char)])).flatten)
      (h l (List.mem_cons_self _ _))]
    simp only [splitNlAux, if_pos rfl, List.append_nil, List.reverse_reverse]
    rw [show splitNlAux [] ((rest.map (fun l => l ++ [('\n' : Char)])).flatten) =
      splitNl ((rest.map (fun l => l ++ [('\n' : Char)])).flatten) from rfl]
    rw [ih (fun l2 hl2 => h l2 (List.mem_cons_of_mem _ hl2))]
    rfl

theorem fieldsAux_nonspace (v : Str) :
    ∀ (acc rest : Str), (∀ c ∈ v, goIsSpace c = false) →
      fieldsAux acc (v ++ rest) = fieldsAux (v.reverse ++ acc) rest := by
  induction v with
  | nil => intro acc rest _; simp
  | cons c cs ih =>
    intro acc rest h
    have hc : goIsSpace c = false := h c (List.mem_cons_self _ _)
    simp only [List.cons_append, fieldsAux, hc]
    rw [if_neg (by simp [hc])]
    rw [show cs.append rest = cs ++ rest from rfl]
    rw [ih (c :: acc) rest (fun x hx => h x (List.mem_cons_of_mem _ hx))]
    simp

theorem fieldsAux_flush (acc cs : Str) (hacc : ¬ acc = []) :
    fieldsAux acc (' ' :: cs) = acc.reverse :: fieldsAux [] cs := by
  simp only [fieldsAux]
  rw [if_pos (show goIsSpace ' ' = true from rfl), if_neg hacc]

theorem fieldsAux_skip (cs : Str) :
    fieldsAux [] (' ' :: cs) = fieldsAux [] cs := by
  simp only [fieldsAux]
  rw [if_pos (show goIsSpace ' ' = true from rfl)]
  simp

theorem fieldsAux_last (acc : Str) (hacc : ¬ acc = []) :
    fieldsAux acc [] = [acc.reverse] := by
  simp only [fieldsAux]
  rw [if_neg hacc]

theorem fields_two (v k : Str) (hv : ¬ v = []) (hk : ¬ k = [])
    (hvs : ∀ c ∈ v, goIsSpace c = false) (hks : ∀ c ∈ k, goIsSpace c = false) :
    fieldsStr (v ++ (' ' :: ' ' :: k)) = [v, k] := by
  rw [fieldsStr, fieldsAux_nonspace v [] (' ' :: ' ' :: k) hvs, List.append_nil]
  have hrv : ¬ v.reverse = [] := by simp [hv]
  rw [fieldsAux_flush _ _ hrv, List.reverse_reverse, fieldsAux_skip]
  have hkfields : fieldsAux ([] : Str) k = [k] := by
    have hh := fieldsAux_nonspace k [] [] hks
    rw [List.append_nil, List.append_nil] at hh
    rw [hh, fieldsAux_last _ (by simp [hk]), List.reverse_reverse]
  rw [hkfields]

theorem dropWhile_cons_false (c : Char) (cs : Str) (h : goIsSpace c = false) :
    (c :: cs).dropWhile goIsSpace = c :: cs := by
  simp [List.dropWhile_cons, h]

theorem trimStr_sep (v k : Str) (hv : ¬ v = []) (hk : ¬ k = [])
    (hvs : ∀ c ∈ v, goIsSpace c = false) (hks : ∀ c ∈ k, goIsSpace c = false) :
    trimStr (v ++ (' ' :: ' ' :: k)) = v ++ (' ' :: ' ' :: k) := by
  obtain ⟨a, ta, hva⟩ := List.exists_cons_of_ne_nil hv
  obtain ⟨b, tb, hkb⟩ := List.exists_cons_of_ne_nil (show ¬ k.reverse = [] by simp [hk])
  have hb : goIsSpace b = false := by
    have : b ∈ k := by
      rw [← List.mem_reverse, hkb]
      exact List.mem_cons_self _ _
    exact hks b this
  have hshape : (v ++ (' ' :: ' ' :: k)).reverse = b :: (tb ++ ([' ', ' '] ++ v.reverse)) := by
    rw [List.reverse_append]
    rw [show (' ' :: ' ' :: k).reverse = k.reverse ++ [' ', ' '] by simp]
    rw [hkb]
    simp
  have hdrop : (v ++ (' ' :: ' ' :: k)).reverse.dropWhile goIsSpace =
      (v ++ (' ' :: ' ' :: k)).reverse := by
    rw [hshape, dropWhile_cons_false _ _ hb]
  have hright : trimRightStr (v ++ (' ' :: ' ' :: k)) = v ++ (' ' :: ' ' :: k) := by
    rw [trimRightStr, hdrop, List.reverse_reverse]
  rw [trimStr, hright, trimLeftStr, hva]
  rw [List.cons_append, dropWhile_cons_false _ _ (hvs a (hva ▸ List.mem_cons_self _ _))]

theorem hasPfx_append_single (v rest : Str) (ch : Char) (hv : ¬ v = []) :
    hasPfx (v ++ rest) [ch] = hasPfx v [ch] := by
  obtain ⟨a, ta, hva⟩ := List.exists_cons_of_ne_nil hv
  rw [hva]
  simp [hasPfx]

theorem trimPfx_of_not (s p : Str) (h : hasPfx s p = false) : trimPfx s p = s := by
  rw [trimPfx, if_neg (by simp [h])]

theorem parseManifestLine_wf (k v : Str) (hk : wfStr k) (hv : wfStr v)
    (h1 : hasPfx k (("*").toList) = false) (h2 : hasPfx k (("./").toList) = false)
    (h3 : hasPfx v (("#").toList) = false) :
    parseManifestLine (v ++ (' ' :: ' ' :: k)) = some (k, v) := by
  obtain ⟨hvne, hvs⟩ := hv
  obtain ⟨hkne, hks⟩ := hk
  unfold parseManifestLine
  rw [trimStr_sep v k hvne hkne hvs hks]
  have hne : ¬ (v ++ (' ' :: ' ' :: k)) = [] := by simp [hvne]
  rw [if_neg hne]
  have hpfx : ¬ hasPfx (v ++ (' ' :: ' ' :: k)) (("#").toList) = true := by
    rw [show (("#").toList : Str) = ['#'] from rfl, hasPfx_append_single v _ _ hvne]
    rw [show (['#'] : Str) = ("#").toList from rfl, h3]
    simp
  rw [if_neg hpfx]
  rw [fields_two v k hvne hkne hvs hks]
  have t1 : trimPfx k (("*").toList) = k := trimPfx_of_not _ _ h1
  have t2 : trimPfx k (("./").toList) = k := trimPfx_of_not _ _ h2
  simp only [t1, t2]
  rw [if_neg hkne]

theorem goIsSpace_ne_nl (c : Char) (h : goIsSpace c = false) : ¬ c = '\n' := by
  intro hc
  rw [hc] at h
  simp [goIsSpace] at h

theorem renderLine_eq (p : Str × Str) :
    renderLine p = (p.2 ++ (' ' :: ' ' :: p.1)) ++ [('\n' : Char)] := by
  simp [renderLine]

theorem parse_foldl_raw (lines : List (Str × Str)) :
    ∀ m0 : List (Str × Str), (∀ p ∈ lines, wfPair p) →
      (lines.map (fun p => p.2 ++ (' ' :: ' ' :: p.1))).foldl parseStep m0 =
        lines.foldl (fun m p => insertMap m p.1 p.2) m0 := by
  induction lines with
  | nil => intro m0 _; rfl
  | cons p rest ih =>
    intro m0 h
    simp only [List.map_cons, List.foldl_cons]
    obtain ⟨w1, w2, w3, w4, w5⟩ := h p (List.mem_cons_self _ _)
    rw [show parseStep m0 (p.2 ++ (' ' :: ' ' :: p.1)) = insertMap m0 p.1 p.2 from by
      unfold parseStep
      rw [parseManifestLine_wf p.1 p.2 w1 w2 w3 w4 w5]]
    exact ih _ (fun q hq => h q (List.mem_cons_of_mem _ hq))

theorem parseSHA256Manifest_render (lines : List (Str × Str))
    (hwf : ∀ p ∈ lines, wfPair p) :
    parseSHA256Manifest ((lines.map renderLine).flatten) =
      lines.foldl (fun m p => insertMap m p.1 p.2) [] := by
  have hrl : renderLine = fun p : Str × Str =>
      (p.2 ++ (' ' :: ' ' :: p.1)) ++ [('\n' : Char)] := funext renderLine_eq
  have hnl : ∀ l ∈ lines.map (fun p : Str × Str => p.2 ++ (' ' :: ' ' :: p.1)),
      ∀ c ∈ l, ¬ c = '\n' := by
    intro l hl c hc
    rcases List.mem_map.mp hl with ⟨p, hp, hpl⟩
    obtain ⟨⟨_, hp1⟩, ⟨_, hp2⟩, _, _, _⟩ := hwf p hp
    rw [← hpl] at hc
    rcases List.mem_append.mp hc with hc | hc
    · exact goIsSpace_ne_nl c (hp2 c hc)
    · rcases List.mem_cons.mp hc with hc | hc
      · rw [hc]; decide
      · rcases List.mem_cons.mp hc with hc | hc
        · rw [hc]; decide
        · exact goIsSpace_ne_nl c (hp1 c hc)
  unfold parseSHA256Manifest
  rw [hrl, show lines.map (fun p : Str × Str => (p.2 ++ (' ' :: ' ' :: p.1)) ++ [('\n' : Char)]) =
    (lines.map (fun p : Str × Str => p.2 ++ (' ' :: ' ' :: p.1))).map
      (fun l => l ++ [('\n' : Char)]) from by rw [List.map_map]; rfl]
  rw [splitNl_lines _ hnl, List.foldl_append]
  rw [show List.foldl parseStep
    ((lines.map (fun p : Str × Str => p.2 ++ (' ' :: ' ' :: p.1))).foldl parseStep []) [[]] =
    (lines.map (fun p : Str × Str => p.2 ++ (' ' :: ' ' :: p.1))).foldl parseStep [] from rfl]
  exact parse_foldl_raw _ [] hwf

theorem lastVal_eq_none_of_not_mem (ps : List (Str × Str)) (k : Str) :
    ¬ k ∈ ps.map Prod.fst → lastVal ps k = none := by
  induction ps with
  | nil => intro _; rfl
  | cons p rest ih =>
    intro h
    simp only [List.map_cons, List.mem_cons] at h
    push_neg at h
    simp only [lastVal, ih h.2]
    rw [if_neg (fun hh => h.1 hh.symm)]

theorem lastVal_eq_lookupA (ps : List (Str × Str)) (k : Str)
    (hnd : (ps.map Prod.fst).Nodup) : lastVal ps k = lookupA ps k := by
  induction ps with
  | nil => rfl
  | cons p rest ih =>
    obtain ⟨k0, v0⟩ := p
    simp only [List.map_cons, List.nodup_cons] at hnd
    rw [lookupA_cons]
    by_cases h : k0 = k
    · have hrest : lastVal rest k = none :=
        lastVal_eq_none_of_not_mem _ _ (by rw [← h]; exact hnd.1)
      simp only [lastVal, hrest]
      rw [if_pos h, if_pos h]
    · simp only [lastVal]
      cases hl : lastVal rest k with
      | some v =>
        rw [ih hnd.2] at hl
        rw [hl]
        simp [h]
      | none =>
        rw [ih hnd.2] at hl
        rw [hl]

theorem lastEntrySum_eq_lastVal (entries : List ChecksumEntry) (k : Str)
    (hval : ∀ e ∈ entries, ¬ e.path = [] ∧ ¬ e.sum = []) :
    lastEntrySum entries k =
      lastVal (entries.map (fun e => (e.path, e.sum))) k := by
  induction entries with
  | nil => rfl
  | cons e rest ih =>
    simp only [lastEntrySum, List.map_cons, lastVal]
    rw [ih (fun q hq => hval q (List.mem_cons_of_mem _ hq))]
    cases lastVal (rest.map fun e => (e.path, e.sum)) k with
    | some v => rfl
    | none =>
      have he := hval e (List.mem_cons_self _ _)
      by_cases hk : e.path = k
      · rw [if_pos ⟨he.1, he.2, hk⟩, if_pos hk]
      · rw [if_neg (by tauto), if_neg hk]

theorem lookupA_foldl_insert (ps : List (Str × Str)) :
    ∀ (m0 : List (Str × Str)) (k : Str),
      lookupA (ps.foldl (fun m p => insertMap m p.1 p.2) m0) k =
        match lastVal ps k with
        | some v => some v
        | none => lookupA m0 k := by
  induction ps with
  | nil => intro m0 k; rfl
  | cons p rest ih =>
    intro m0 k
    simp only [List.foldl_cons]
    rw [ih]
    cases hl : lastVal rest k with
    | some v => simp only [lastVal, hl]
    | none =>
      simp only [lastVal, hl]
      rw [lookupA_insertMap]
      by_cases hk : p.1 = k
      · rw [if_pos hk, if_pos hk]
      · rw [if_neg hk, if_neg hk]

theorem optEq_of_someIff (a b : Option Str)
    (h : ∀ v, a = some v ↔ b = some v) : a = b := by
  cases a with
  | some v => exact ((h v).mp rfl).symm
  | none =>
    cases b with
    | none => rfl
    | some v => exact absurd ((h v).mpr rfl) (by simp)

/-- C4 counterexample. The round-trip is not exact for every non-empty
unique-path entry list: a relative path beginning with `./` is stripped by
the reader, so the written entry `("./a", "ff")` parses back under the key
`"a"` and the returned map has no binding for the input path `"./a"`. -/
theorem manifest_roundtrip_cex :
    writeSHA256Manifest none [⟨("./a").toList, ("ff").toList⟩] false =
        Except.ok (("ff  ./a\n").toList) ∧
      lookupA (parseSHA256Manifest (("ff  ./a\n").toList)) (("./a").toList) = none ∧
      lookupA [((("./a").toList : Str), (("ff").toList : Str))] (("./a").toList) =
        some (("ff").toList) :=
  ⟨rfl, by decide, by decide⟩

/-- C4 amended. Manifest round-trip: for any non-empty entry list with
unique relative paths whose entries survive the text format — path and
digest non-empty and whitespace-free, the path not starting with the `*`
or `./` markers the reader strips, the digest not starting with `#` —
parsing the content written by a non-append `writeManifest` returns
exactly the input entries as a map. -/
theorem manifest_roundtrip :
    ∀ entries : List ChecksumEntry, ¬ entries = [] →
      (∀ e ∈ entries, wfEntry e) →
      (entries.map (fun e => e.path)).Nodup →
      ∃ out, writeSHA256Manifest none entries false = Except.ok out ∧
        ∀ k, lookupA (parseSHA256Manifest out) k =
          lookupA (entries.map (fun e => (e.path, e.sum))) k := by
  intro entries hne hwf hnd
  obtain ⟨lines, h1, h2, h3⟩ := writeManifest_char none entries false hne
  have hval : ∀ e ∈ entries, ¬ e.path = [] ∧ ¬ e.sum = [] := by
    intro e he
    obtain ⟨⟨hp, _⟩, ⟨hs, _⟩, _, _, _⟩ := hwf e he
    exact ⟨hp, hs⟩
  have hmerged : ∀ k, lookupA (mergeEntries (manifestBase none false) entries) k =
      lastEntrySum entries k := by
    intro k
    rw [lookupA_mergeEntries]
    cases lastEntrySum entries k with
    | some v => rfl
    | none => simp [manifestBase, lookupA]
  have hlwf : ∀ p ∈ lines, wfPair p := by
    intro p hp
    have hpl : (p.1, p.2) ∈ lines := by
      rw [Prod.mk.eta]
      exact hp
    have hl := (h3 p.1 p.2).mp hpl
    rw [hmerged] at hl
    obtain ⟨e, he, hep, hes, _, _⟩ := lastEntrySum_mem _ _ _ hl
    obtain ⟨w1, w2, w3, w4, w5⟩ := hwf e he
    exact ⟨hep ▸ w1, hes ▸ w2, hep ▸ w3, hep ▸ w4, hes ▸ w5⟩
  have hndl : (lines.map Prod.fst).Nodup := by
    have hne2 : lines.Pairwise (fun p q : Str × Str => ¬ p.1 = q.1) :=
      h2.imp (fun hpq => hpq.2)
    exact List.pairwise_map.mpr hne2
  have hmapnd : ((entries.map (fun e => (e.path, e.sum))).map Prod.fst).Nodup := by
    rw [List.map_map]
    exact hnd
  refine ⟨_, h1, ?_⟩
  intro k
  rw [parseSHA256Manifest_render lines hlwf, lookupA_foldl_insert,
    lastVal_eq_lookupA _ _ hndl]
  have hiff : ∀ v, lookupA lines k = some v ↔
      lookupA (entries.map (fun e => (e.path, e.sum))) k = some v := by
    intro v
    rw [lookupA_mem_iff lines k v hndl, h3 k v, hmerged k,
      lastEntrySum_eq_lastVal entries k hval, lastVal_eq_lookupA _ _ hmapnd]
  have heq := optEq_of_someIff _ _ hiff
  cases hc : lookupA lines k with
  | some v =>
    simp only [hc]
    rw [(hiff v).mp hc]
  | none =>
    simp only [hc]
    rw [show lookupA ([] : List (Str × Str)) k = none from rfl, ← heq, hc]

/-- Witness for the amended C4 theorem at a concrete one-entry list. -/
theorem manifest_roundtrip_witness :
    ∃ out, writeSHA256Manifest none [⟨("a").toList, ("ff").toList⟩] false =
        Except.ok out ∧
      ∀ k, lookupA (parseSHA256Manifest out) k =
        lookupA ([(⟨("a").toList, ("ff").toList⟩ : ChecksumEntry)].map
          (fun e => (e.path, e.sum))) k :=
  manifest_roundtrip _ (by decide)
    (by
      intro e he
      simp only [List.mem_singleton] at he
      subst he
      exact ⟨⟨by decide, by decide⟩, ⟨by decide, by decide⟩, by decide, by decide,
        by decide⟩)
    (by decide)

theorem firstLookup_single (man : List (Str × Str)) (x : Str) :
    firstLookup man [x] = lookupA man x := by
  cases h : lookupA man x with
  | none => simp [firstLookup, h]
  | some v => simp [firstLookup, h]

theorem verifyEntry_eq (digest : Option Str) (path root : Str)
    (relr : Option Str) (man : List (Str × Str)) :
    verifySHA256ManifestEntry digest path root relr (some man) =
      match firstLookup man (lookupKeys path root relr) with
      | none => Except.error (VerifyErr.noEntry (baseName path))
      | some expected => checkDigest digest expected := rfl

theorem lookupKeys_some (path root rel : Str) :
    lookupKeys path root (some rel) =
      if root = [] then [baseName path]
      else if rel = [] ∨ rel = [('.' : Char)] then [baseName path]
      else [rel, baseName path] := rfl

theorem lookupKeys_none (path root : Str) :
    lookupKeys path root none = [baseName path] := by
  unfold lookupKeys
  by_cases h : root = []
  · rw [if_pos h]
  · rw [if_neg h]

theorem checkDigest_some (d v : Str) :
    checkDigest (some d) v =
      if eqFold d (trimStr v) = true then Except.ok ()
      else Except.error (VerifyErr.mismatch v) := rfl

/-- C6. Lookup order and error discrimination of
`verifySHA256ManifestEntry`: when the root is non-empty and the relative
path is meaningful (non-empty, not `"."`), a manifest binding for the
relative path decides the outcome (the base name is not consulted); when
no such relative binding applies, the base name decides it; when neither
key is bound the result is the no-manifest-entry error, which is a
condition distinct from the hash-mismatch error raised when a key is bound
but the computed digest differs from the recorded hex. -/
theorem verifyManifest_lookup_spec :
    ∀ (digest : Option Str) (path root : Str) (relr : Option Str)
      (man : List (Str × Str)),
      (∀ rel v, ¬ root = [] → relr = some rel → ¬ rel = [] →
        ¬ rel = [('.' : Char)] → lookupA man rel = some v →
        verifySHA256ManifestEntry digest path root relr (some man) =
          checkDigest digest v) ∧
      ((∀ rel, relr = some rel → ¬ root = [] → ¬ rel = [] →
          ¬ rel = [('.' : Char)] → lookupA man rel = none) →
        (∀ v, lookupA man (baseName path) = some v →
          verifySHA256ManifestEntry digest path root relr (some man) =
            checkDigest digest v) ∧
        (lookupA man (baseName path) = none →
          verifySHA256ManifestEntry digest path root relr (some man) =
            Except.error (VerifyErr.noEntry (baseName path)))) ∧
      (∀ d v, eqFold d (trimStr v) = false →
        checkDigest (some d) v = Except.error (VerifyErr.mismatch v)) ∧
      (∀ b e, ¬ (VerifyErr.noEntry b = VerifyErr.mismatch e)) := by
  intro digest path root relr man
  refine ⟨?_, ?_, ?_, ?_⟩
  · intro rel v hroot hrel hne hdot hv
    subst hrel
    rw [verifyEntry_eq, lookupKeys_some, if_neg hroot,
      if_neg (by tauto : ¬ (rel = [] ∨ rel = [('.' : Char)]))]
    simp only [firstLookup, hv]
  · intro hrel
    have hfl : firstLookup man (lookupKeys path root relr) =
        lookupA man (baseName path) := by
      by_cases hroot : root = []
      · cases relr with
        | none => rw [lookupKeys_none, firstLookup_single]
        | some rel => rw [lookupKeys_some, if_pos hroot, firstLookup_single]
      · cases hr : relr with
        | none => rw [lookupKeys_none, firstLookup_single]
        | some rel =>
          rw [lookupKeys_some, if_neg hroot]
          by_cases hmean : rel = [] ∨ rel = [('.' : Char)]
          · rw [if_pos hmean, firstLookup_single]
          · rw [if_neg hmean]
            push_neg at hmean
            have hnone := hrel rel hr hroot hmean.1 hmean.2
            simp only [firstLookup, hnone]
            exact firstLookup_single man (baseName path)
    constructor
    · intro v hv
      rw [verifyEntry_eq, hfl, hv]
    · intro hv
      rw [verifyEntry_eq, hfl, hv]
  · intro d v hfold
    rw [checkDigest_some, if_neg (by simp [hfold])]
  · intro b e h
    cases h

/-- Witness for the C6 theorem: a root-relative key present in the
manifest decides the outcome. -/
theorem verifyManifest_lookup_spec_witness :
    verifySHA256ManifestEntry (some (("ff").toList)) (("d/f").toList)
        (("d").toList) (some (("f").toList))
        (some [((("f").toList : Str), (("ff").toList : Str))]) =
      checkDigest (some (("ff").toList)) (("ff").toList) :=
  (verifyManifest_lookup_spec _ _ _ _ _).1 _ _ (by decide) rfl (by decide)
    (by decide) (by decide)

theorem fetchLoop_evs (w : World) (args : List Str) :
    (fetchLoop w args).1 = args.map Ev.fetchBrand := by
  induction args with
  | nil => rfl
  | cons d ds ih => simp [fetchLoop, ih]

theorem fetchLoop_results_ne_nil (w : World) (args : List Str)
    (hs : ∀ d ∈ args, (w.getBrand d).isSome = true) (hne : ¬ args = []) :
    ¬ (fetchLoop w args).2 = [] := by
  cases args with
  | nil => exact absurd rfl hne
  | cons d ds =>
    have hd := hs d (List.mem_cons_self _ _)
    simp only [fetchLoop]
    cases hg : w.getBrand d with
    | none =>
      rw [hg] at hd
      simp at hd
    | some r => simp

/-- C7 counterexample. A run with manifest-append requested but no
manifest-output path (and no download directory) fails with that
validation error only after the brand-fetch phase: the trace contains a
network fetch, contradicting "surfaced before any network activity". -/
theorem quick_validation_after_fetch_cex :
    (runQuickCmd cexCfg [("x.com").toList] cexWorld).2 =
        Except.error QuickErr.appendWithoutOut ∧
      (runQuickCmd cexCfg [("x.com").toList] cexWorld).1 =
        [Ev.fetchBrand (("x.com").toList)] :=
  ⟨rfl, rfl⟩

/-- C7 amended. Only the export-format mutual-exclusion validations
(css with json output, tailwind with json output, tailwind with css) are
surfaced before any network activity — such a run performs no brand fetch.
The manifest-flag validation "append requested without a manifest-output
path" is checked only after the brand-fetch phase, so a run failing it has
already fetched every identifier. -/
theorem quick_validation_order :
    ∀ (cfg : QuickConfig) (args : List Str) (w : World),
      (cfg.cssOutput = true → cfg.outputFormat = ("json").toList →
        runQuickCmd cfg args w = ([], Except.error QuickErr.mutexCssJson)) ∧
      (cfg.tailwindOutput = true → cfg.outputFormat = ("json").toList →
        cfg.cssOutput = false →
        runQuickCmd cfg args w = ([], Except.error QuickErr.mutexTailwindJson)) ∧
      (cfg.tailwindOutput = true → cfg.cssOutput = true →
        ¬ cfg.outputFormat = ("json").toList →
        runQuickCmd cfg args w = ([], Except.error QuickErr.mutexTailwindCss)) ∧
      (cfg.downloadDir = [] → cfg.manifestPath = [] → cfg.manifestOutPath = [] →
        cfg.manifestAppend = true → cfg.cssOutput = false →
        cfg.tailwindOutput = false → ¬ resolveOutputCfg cfg = none →
        (∀ d ∈ args, (w.getBrand d).isSome = true) → ¬ args = [] →
        runQuickCmd cfg args w =
          (args.map Ev.fetchBrand, Except.error QuickErr.appendWithoutOut)) := by
  intro cfg args w
  refine ⟨?_, ?_, ?_, ?_⟩
  · intro h1 h2
    unfold runQuickCmd
    rw [if_pos ⟨h1, h2⟩]
  · intro h1 h2 h3
    unfold runQuickCmd
    rw [if_neg (by simp [h3]), if_pos ⟨h1, h2⟩]
  · intro h1 h2 h3
    unfold runQuickCmd
    rw [if_neg (by tauto), if_neg (by tauto), if_pos ⟨h1, h2⟩]
  · intro h1 h2 h3 h4 h5 h6 hro hs hne
    have hres : ¬ (fetchLoop w args).2 = [] := fetchLoop_results_ne_nil w args hs hne
    obtain ⟨fc, hfc⟩ : ∃ fc, resolveOutputCfg cfg = some fc := by
      cases hr : resolveOutputCfg cfg with
      | none => exact absurd hr hro
      | some fc => exact ⟨fc, rfl⟩
    simp only [runQuickCmd, h1, h2, h3, h4, h5, h6, hfc, hres, fetchLoop_evs]
    simp

/-- Witness for the amended C7 theorem: the append-without-output error
arrives with the full fetch trace. -/
theorem quick_validation_order_witness :
    runQuickCmd cexCfg [("x.com").toList] cexWorld =
      ([("x.com").toList].map Ev.fetchBrand,
        Except.error QuickErr.appendWithoutOut) :=
  (quick_validation_order cexCfg [("x.com").toList] cexWorld).2.2.2 rfl rfl rfl rfl
    rfl rfl (by decide) (by decide) (by decide)

theorem downloadLoop_res_ok (cfg : QuickConfig) (w : World)
    (manifest : Option (List (Str × Str))) (targetDir : Str)
    (hstrict : cfg.manifestVerify = false) :
    ∀ ds : List (Str × Str),
      (downloadLoop cfg w manifest targetDir ds).res = Except.ok () := by
  intro ds
  induction ds with
  | nil => rfl
  | cons d rest ih =>
    obtain ⟨url, fname⟩ := d
    simp only [downloadLoop]
    cases w.fetchAsset url with
    | none => simpa using ih
    | some content =>
      cases hv : verifySHA256ManifestEntry (some (w.digest content))
          (joinPath targetDir fname) cfg.downloadDir
          (w.relOf cfg.downloadDir (joinPath targetDir fname)) manifest with
      | error e =>
        simp only [hv, hstrict]
        simpa using ih
      | ok u =>
        simp only [hv]
        simpa using ih

theorem batchLoop_ok_iff (cfg : QuickConfig) (w : World)
    (manifest : Option (List (Str × Str))) (multi : Bool)
    (hstrict : cfg.manifestVerify = false) :
    ∀ results : List QuickResult,
      ((batchLoop cfg w manifest multi results).res = Except.ok () ↔
        ∀ r2 ∈ results, w.mkdirOK (targetDirOf cfg multi r2) = true) := by
  intro results
  induction results with
  | nil => simp [batchLoop]
  | cons r rest ih =>
    simp only [batchLoop]
    cases hmk : w.mkdirOK (targetDirOf cfg multi r) with
    | false =>
      have hto : downloadAssetsToDir cfg w manifest r (targetDirOf cfg multi r) =
          ⟨[], [], [],
            Except.error (QuickErr.mkdirFailed (targetDirOf cfg multi r))⟩ := by
        unfold downloadAssetsToDir
        rw [if_pos hmk]
      rw [hto, List.forall_mem_cons]
      constructor
      · intro h
        exact Except.noConfusion h
      · intro h
        have hh := h.1
        rw [hmk] at hh
        cases hh
    | true =>
      have hto : downloadAssetsToDir cfg w manifest r (targetDirOf cfg multi r) =
          downloadLoop cfg w manifest (targetDirOf cfg multi r) (downloadsFor w r) := by
        unfold downloadAssetsToDir
        rw [if_neg (by rw [hmk]; simp)]
      rw [hto,
        downloadLoop_res_ok cfg w manifest (targetDirOf cfg multi r) hstrict
          (downloadsFor w r),
        List.forall_mem_cons]
      constructor
      · intro hres
        exact ⟨hmk, ih.mp hres⟩
      · intro hres
        exact ih.mpr hres.2

theorem downloadLoop_diag_fail (cfg : QuickConfig) (w : World)
    (manifest : Option (List (Str × Str))) (targetDir : Str)
    (hstrict : cfg.manifestVerify = false) :
    ∀ (ds : List (Str × Str)) (url fname : Str),
      (url, fname) ∈ ds → w.fetchAsset url = none →
      Diag.fetchFailed fname ∈ (downloadLoop cfg w manifest targetDir ds).diags := by
  intro ds
  induction ds with
  | nil =>
    intro url fname h _
    simp at h
  | cons d rest ih =>
    intro url fname hmem hfetch
    obtain ⟨u2, f2⟩ := d
    simp only [downloadLoop]
    rcases List.mem_cons.mp hmem with heq | hmem2
    · rw [Prod.mk.injEq] at heq
      rw [← heq.1, hfetch]
      simp only []
      rw [heq.2]
      exact List.mem_cons_self _ _
    · cases hf2 : w.fetchAsset u2 with
      | none =>
        simp only [hf2]
        exact List.mem_cons_of_mem _ (ih url fname hmem2 hfetch)
      | some content =>
        cases hv : verifySHA256ManifestEntry (some (w.digest content))
            (joinPath targetDir f2) cfg.downloadDir
            (w.relOf cfg.downloadDir (joinPath targetDir f2)) manifest with
        | error e =>
          simp only [hv, hstrict]
          simp only [Bool.false_eq_true, if_false]
          exact List.mem_cons_of_mem _
            (List.mem_cons_of_mem _ (ih url fname hmem2 hfetch))
        | ok u =>
          simp only [hv]
          exact List.mem_cons_of_mem _ (ih url fname hmem2 hfetch)

/-- C8. Download failure asymmetry: a failure to create a brand's
destination directory aborts the whole batch with the fatal
directory-creation error, whereas — absent strict manifest verification —
a failed fetch of a single asset (transport error or non-200 status) only
produces a diagnostic line for that asset and the batch always completes:
its outcome is success exactly when every brand's directory creation
succeeds, regardless of any per-asset fetch outcomes. -/
theorem download_failure_asymmetry :
    ∀ (cfg : QuickConfig) (w : World) (manifest : Option (List (Str × Str)))
      (r : QuickResult) (targetDir : Str) (results : List QuickResult),
      (w.mkdirOK targetDir = false →
        downloadAssetsToDir cfg w manifest r targetDir =
          ⟨[], [], [], Except.error (QuickErr.mkdirFailed targetDir)⟩) ∧
      (cfg.manifestVerify = false →
        ((downloadAssetsBatch cfg w manifest results).res = Except.ok () ↔
          ∀ r2 ∈ results,
            w.mkdirOK (targetDirOf cfg (results.length > 1) r2) = true)) ∧
      (cfg.manifestVerify = false → w.mkdirOK targetDir = true →
        ∀ url fname, (url, fname) ∈ downloadsFor w r → w.fetchAsset url = none →
          Diag.fetchFailed fname ∈
            (downloadAssetsToDir cfg w manifest r targetDir).diags) := by
  intro cfg w manifest r targetDir results
  refine ⟨?_, ?_, ?_⟩
  · intro hmk
    unfold downloadAssetsToDir
    rw [if_pos hmk]
  · intro hstrict
    exact batchLoop_ok_iff cfg w manifest (results.length > 1) hstrict results
  · intro hstrict hmk url fname hmem hfetch
    have hto : downloadAssetsToDir cfg w manifest r targetDir =
        downloadLoop cfg w manifest targetDir (downloadsFor w r) := by
      unfold downloadAssetsToDir
      rw [if_neg (by rw [hmk]; simp)]
    rw [hto]
    exact downloadLoop_diag_fail cfg w manifest targetDir hstrict _ url fname
      hmem hfetch

/-- Witness for the C8 theorem: with directory creation succeeding and
strict verification off, a batch over one brand (whose asset fetches all
fail) still completes successfully. -/
theorem download_failure_asymmetry_witness :
    (downloadAssetsBatch cexCfg cexWorld none [cexBrand]).res = Except.ok () :=
  ((download_failure_asymmetry cexCfg cexWorld none cexBrand [] [cexBrand]).2.1
      rfl).mpr (by decide)

end Brandfetch
